import Mathlib

/-!
# Verification of `inject-define-options`

A shallow embedding of `src/inject.ts` (`injectDefineOptions`): the route
extractor over a ts-morph style syntax tree, and the Vue component patcher
over raw text.  Text is modelled as `List Char`; the JavaScript string and
regex primitives used by the source (`String.match` with the two fixed
regexes, `String.replace` including `$`-substitution in the replacement
string, `trim`, `split`, `includes`, `startsWith`, `endsWith`) are modelled
executably below.  The file system is an association list from paths to
file contents; each run step returns the new file system and the log
message the source prints for that step.
-/

namespace InjectDefineOptions

/-- Text, as a list of characters (JS strings). -/
abbrev Str := List Char

/-- Characters treated as whitespace by the `\s` regex class and by
`String.prototype.trim` (ASCII subset; the source never manipulates the
exotic Unicode space characters). -/
def isWs (c : Char) : Bool :=
  c = ' ' || c = '\t' || c = '\n' || c = '\r' || c = Char.ofNat 11 || c = Char.ofNat 12

/-- JS `String.prototype.trim`: drop whitespace from both ends. -/
def trimStr (s : Str) : Str :=
  ((s.dropWhile isWs).reverse.dropWhile isWs).reverse

/-- JS `hay.includes(needle)`: substring test. -/
def containsStr (hay needle : Str) : Bool :=
  if needle.isPrefixOf hay then true
  else
    match hay with
    | [] => false
    | _ :: t => containsStr t needle

/-- Split `hay` at the first occurrence of `needle`: returns the part
before the occurrence and the part after it (the occurrence removed).
Returns `none` when `needle` does not occur.  This is the search
underlying JS `String.replace(string, _)` and the lazy
`([\s\S]*?)needle` regex tail. -/
def splitFirst (hay needle : Str) : Option (Str × Str) :=
  if needle.isPrefixOf hay then some ([], hay.drop needle.length)
  else
    match hay with
    | [] => none
    | c :: t => (splitFirst t needle).map (fun p => (c :: p.1, p.2))

theorem splitFirst_snd_length_lt {hay needle a b : Str}
    (h : splitFirst hay needle = some (a, b)) (hn : needle ≠ []) :
    b.length < hay.length := by
  induction hay generalizing a b with
  | nil =>
      cases needle with
      | nil => exact absurd rfl hn
      | cons c t => rw [splitFirst] at h; simp [List.isPrefixOf] at h
  | cons c t ih =>
      by_cases hp : needle.isPrefixOf (c :: t) = true
      · rw [splitFirst, if_pos hp] at h
        simp only [Option.some.injEq, Prod.mk.injEq] at h
        obtain ⟨-, h2⟩ := h
        subst h2
        have hlen : 0 < needle.length := List.length_pos.mpr hn
        simp only [List.length_drop, List.length_cons]
        omega
      · rw [splitFirst, if_neg hp] at h
        cases hrec : splitFirst t needle with
        | none => rw [hrec] at h; simp at h
        | some p =>
            obtain ⟨a', b'⟩ := p
            rw [hrec] at h
            simp only [Option.map_some', Option.some.injEq, Prod.mk.injEq] at h
            obtain ⟨-, h2⟩ := h
            subst h2
            have := ih hrec
            simp only [List.length_cons]
            omega

/-- The `GetSubstitution` part of JS `String.prototype.replace`: expand
`$$`, `$&`, `` $` `` and `$'` in the replacement string (`m` is the
matched text, `pre` the part of the subject before the match, `post` the
part after it).  Other `$` sequences are left as-is, as they are in JS
when the pattern has no capture groups. -/
def expandDollar (m pre post : Str) : Str → Str
  | [] => []
  | '$' :: c :: t =>
      if c = '$' then '$' :: expandDollar m pre post t
      else if c = '&' then m ++ expandDollar m pre post t
      else if c = Char.ofNat 96 then pre ++ expandDollar m pre post t
      else if c = '\'' then post ++ expandDollar m pre post t
      else '$' :: expandDollar m pre post (c :: t)
  | c :: t => c :: expandDollar m pre post t

/-- JS `hay.replace(needle, repl)` with a *string* search value: replace
the first occurrence, applying `$`-substitution to `repl`. -/
def replaceFirstStr (hay needle repl : Str) : Str :=
  match splitFirst hay needle with
  | none => hay
  | some (a, b) => a ++ expandDollar needle a b repl ++ b

/-- The literal `<script`. -/
def openTag : Str := "<script".data
/-- The literal `</script>`. -/
def closeTag : Str := "</script>".data
/-- The literal `defineOptions`, the marker token. -/
def marker : Str := "defineOptions".data

/-- One attempt of the script-block regex
`/<script([^>]*)>([\s\S]*?)<\/script>/` at the start of `s`:
literal `<script`, then a maximal run of non-`>` characters (the
attributes), a `>`, then lazily up to the first `</script>`.
Returns `(attrs, inner, post)`. -/
def tryScriptAt (s : Str) : Option (Str × Str × Str) :=
  if openTag.isPrefixOf s then
    let r := s.drop 7
    let attrs := r.takeWhile (fun c => c ≠ '>')
    match r.drop attrs.length with
    | '>' :: body => (splitFirst body closeTag).map (fun p => (attrs, p.1, p.2))
    | _ => none
  else none

/-- Leftmost match of the script-block regex: the JS engine tries each
start position in order.  Returns `(pre, attrs, inner, post)` where
`pre` is the text before the match. -/
def scanScript : Str → Option (Str × Str × Str × Str)
  | [] => none
  | c :: t =>
      match tryScriptAt (c :: t) with
      | some (a, i, p) => some ([], a, i, p)
      | none => (scanScript t).map (fun q => (c :: q.1, q.2.1, q.2.2.1, q.2.2.2))

/-- Length contributed by the optional `;` of the pattern. -/
def semiTok : Str → Nat
  | ';' :: _ => 1
  | _ => 0

/-- One attempt of the loose call pattern
`/defineOptions\s*\(\s*\{[^}]*\}\s*\)\s*;?/` at the start of `s`,
returning the length of the match.  The pattern is effectively
deterministic: each `\s*` / `[^}]*` run is maximal and the following
required character admits no backtracking. -/
def tryDefAt (s : Str) : Option Nat :=
  if marker.isPrefixOf s then
    let r1 := s.drop 13
    let w1 := r1.takeWhile isWs
    match r1.drop w1.length with
    | '(' :: r3 =>
      let w2 := r3.takeWhile isWs
      match r3.drop w2.length with
      | '{' :: r5 =>
        let body := r5.takeWhile (fun c => c ≠ '}')
        match r5.drop body.length with
        | '}' :: r7 =>
          let w3 := r7.takeWhile isWs
          match r7.drop w3.length with
          | ')' :: r9 =>
            let w4 := r9.takeWhile isWs
            some (13 + w1.length + 1 + w2.length + 1 + body.length + 1 +
                  w3.length + 1 + w4.length + semiTok (r9.drop w4.length))
          | _ => none
        | _ => none
      | _ => none
    | _ => none
  else none

/-- Leftmost match of the loose `defineOptions` pattern:
`(pre, matched, post)`. -/
def findDef : Str → Option (Str × Str × Str)
  | [] => none
  | c :: t =>
      match tryDefAt (c :: t) with
      | some n => some ([], (c :: t).take n, (c :: t).drop n)
      | none => (findDef t).map (fun p => (c :: p.1, p.2.1, p.2.2))

/-- JS `s.replace(/defineOptions.../ , repl)`: replace the leftmost
pattern match, applying `$`-substitution to `repl`; `s` is unchanged
when the pattern does not match. -/
def replaceFirstDef (s repl : Str) : Str :=
  match findDef s with
  | none => s
  | some (a, m, b) => a ++ expandDollar m a b repl ++ b

/-- Head test for an import declaration: the keyword `import` followed by
a character that can start the rest of an import clause. -/
def importHead (t : Str) : Bool :=
  "import".data.isPrefixOf t &&
    (match t.drop 6 with
     | [] => false
     | c :: _ => isWs c || c = '{' || c = '"' || c = '\'' || c = '*')

/-- Ends of the leading top-level `import ...;` statements of a script
fragment, as scanned by the source through
`vueProject.createSourceFile(...).getImportDeclarations()`.  Models the
ts-morph/TypeScript parse for the statement forms occurring in script
blocks: whitespace, then `import` followed by a non-identifier
character, up to the terminating `;`; the TypeScript node end is the
position just past that `;`.  Accumulates the end of the last such
import. -/
def scanImports : Nat → Str → Nat → Option Nat → Option Nat
  | 0, _, _, acc => acc
  | fuel + 1, s, pos, acc =>
      if importHead (s.drop (s.takeWhile isWs).length) then
        match splitFirst (s.drop (s.takeWhile isWs).length) [';'] with
        | some (before, after) =>
            scanImports fuel after
              (pos + (s.takeWhile isWs).length + before.length + 1)
              (some (pos + (s.takeWhile isWs).length + before.length + 1))
        | none => acc
      else acc

/-- Absolute end position (just past the `;`) of the last leading import
declaration of a script fragment, if any.  The fuel `s.length` is never
exhausted: each round removes at least the scanned `;`
(`splitFirst_snd_length_lt`), so the recursion depth is below the
fragment length. -/
def lastImportEnd (s : Str) : Option Nat := scanImports s.length s 0 none

/-- The injected statement `defineOptions({ name: "<name>" });`. -/
def defineLine (name : Str) : Str :=
  "defineOptions(\x7b name: \"".data ++ name ++ "\" \x7d);".data

/-- Insertion of `defineLine name` into a script fragment that does not
yet contain the marker: after the last leading import plus one character
when imports exist, else at the very start (source lines 168–180). -/
def insertDefine (inner : Str) (name : Str) : Str :=
  match lastImportEnd inner with
  | some e =>
      inner.take (e + 1) ++ '\n' :: defineLine name ++ '\n' :: inner.drop (e + 1)
  | none => defineLine name ++ '\n' :: inner

/-- The patcher for one component file (source lines 146–190): given the
file text and the route name, rewrite the first script block (replace an
existing `defineOptions` call, or insert the statement), or synthesize a
`<script setup>` block when no script block matches. -/
def patchVue (content : Str) (name : Str) : Str :=
  match scanScript content with
  | some (_pre, attrs, inner, _post) =>
      let inner' :=
        if containsStr inner marker then replaceFirstDef inner (defineLine name)
        else insertDefine inner name
      let newScript :=
        openTag ++ attrs ++ '>' :: '\n' :: trimStr inner' ++ '\n' :: closeTag
      let oldBlock := openTag ++ attrs ++ '>' :: inner ++ closeTag
      replaceFirstStr content oldBlock newScript
  | none =>
      "<script setup>\n".data ++ defineLine name ++ "\n</script>\n".data ++ content

/-! ## The route extractor: ts-morph syntax tree model

Only the node kinds the source inspects are represented.  Object
properties carry an identifier key and a value expression (the route
files the tool accepts use identifier keys); callees are carried as
their source text, as compared by `call.getExpression().getText()`. -/

inductive TsExpr where
  | strLit (s : Str)
  | ident (name : Str)
  | arrow (body : TsExpr)
  | call (callee : Str) (args : List TsExpr)
  | obj (props : List (Str × TsExpr))
  | arr (elems : List TsExpr)
  | asE (inner : TsExpr)
  | other

mutual

/-- Pre-order first string-literal descendant of an expression (models
`getFirstDescendantByKind(SyntaxKind.StringLiteral)` applied to a
property, searching the property's value including the value itself). -/
def firstStrLit : TsExpr → Option Str
  | .strLit s => some s
  | .ident _ => none
  | .arrow b => firstStrLit b
  | .call _ args => firstStrLitL args
  | .obj props => firstStrLitP props
  | .arr es => firstStrLitL es
  | .asE e => firstStrLit e
  | .other => none

/-- Pre-order first string literal of an expression list. -/
def firstStrLitL : List TsExpr → Option Str
  | [] => none
  | e :: t =>
      match firstStrLit e with
      | some s => some s
      | none => firstStrLitL t

/-- Pre-order first string literal of an object's property values. -/
def firstStrLitP : List (Str × TsExpr) → Option Str
  | [] => none
  | (_, v) :: t =>
      match firstStrLit v with
      | some s => some s
      | none => firstStrLitP t

end

mutual

/-- Pre-order first arrow-function descendant (models
`getFirstDescendantByKind(SyntaxKind.ArrowFunction)` on a property). -/
def firstArrow : TsExpr → Option TsExpr
  | .arrow b => some (.arrow b)
  | .call _ args => firstArrowL args
  | .obj props => firstArrowP props
  | .arr es => firstArrowL es
  | .asE e => firstArrow e
  | _ => none

/-- Pre-order first arrow function of an expression list. -/
def firstArrowL : List TsExpr → Option TsExpr
  | [] => none
  | e :: t =>
      match firstArrow e with
      | some a => some a
      | none => firstArrowL t

/-- Pre-order first arrow function of an object's property values. -/
def firstArrowP : List (Str × TsExpr) → Option TsExpr
  | [] => none
  | (_, v) :: t =>
      match firstArrow v with
      | some a => some a
      | none => firstArrowP t

end

mutual

/-- Pre-order first call expression whose callee text is `import`
(models `getDescendantsOfKind(SyntaxKind.CallExpression).find(call =>
call.getExpression().getText() === "import")`); returns its arguments. -/
def firstImportCall : TsExpr → Option (List TsExpr)
  | .call c args =>
      if c = "import".data then some args else firstImportCallL args
  | .arrow b => firstImportCall b
  | .obj props => firstImportCallP props
  | .arr es => firstImportCallL es
  | .asE e => firstImportCall e
  | _ => none

/-- Pre-order first import call of an expression list. -/
def firstImportCallL : List TsExpr → Option (List TsExpr)
  | [] => none
  | e :: t =>
      match firstImportCall e with
      | some a => some a
      | none => firstImportCallL t

/-- Pre-order first import call of an object's property values. -/
def firstImportCallP : List (Str × TsExpr) → Option (List TsExpr)
  | [] => none
  | (_, v) :: t =>
      match firstImportCall v with
      | some a => some a
      | none => firstImportCallP t

end

/-- Models `expr.asKind(SyntaxKind.StringLiteral)?.getLiteralText()`. -/
def asStrLit : TsExpr → Option Str
  | .strLit s => some s
  | _ => none

/-- A matched route: logical name and path relative to the views dir. -/
structure RouteItem where
  name : Str
  relativePath : Str
  deriving Repr, DecidableEq

/-- The views alias `@/views/`. -/
def viewsAlias : Str := "@/views/".data

/-- Extraction for one array element (source lines 82–114): an object
literal with both a `name` and a `component` property, a string literal
inside `name`, an arrow function inside `component`, a dynamic `import`
call with a string-literal argument starting with `@/views/`.  Any
mismatch is a silent skip (`none`); the guard
`if (!nameText || !arrowFn) continue` (line 96) tests JS falsiness, so
an *empty* name string literal is also skipped.  The final
`importPath.replace("@/views/", "")` removes the first occurrence of the
alias, which — the path being alias-prefixed — is `List.drop 8`. -/
def extractRoute (e : TsExpr) : Option RouteItem :=
  match e with
  | .obj props => do
      let nameProp ← props.find? (fun p => p.1 = "name".data)
      let compProp ← props.find? (fun p => p.1 = "component".data)
      let nameText ← firstStrLit nameProp.2
      let arrowFn ← firstArrow compProp.2
      if nameText = [] then none
      else do
        let args ← firstImportCall arrowFn
        let arg0 ← args.head?
        let importPath ← asStrLit arg0
        if viewsAlias.isPrefixOf importPath then
          some ⟨nameText, importPath.drop 8⟩
        else none
  | _ => none

/-- Extraction over the whole route array, in array-literal order. -/
def extractRoutes (elems : List TsExpr) : List RouteItem :=
  elems.filterMap extractRoute

/-- Resolution of the `export default` expression to an array literal
(source lines 31–70): the exported expression is an array literal, a
type-asserted array literal, or an identifier whose declaration's
initializer (`env`) is one of those. -/
def resolveRouteArray (env : Str → Option TsExpr) : TsExpr → Option (List TsExpr)
  | .arr es => some es
  | .asE inner =>
      match inner with
      | .arr es => some es
      | _ => none
  | .ident n =>
      match env n with
      | some init =>
          match init with
          | .arr es => some es
          | .asE inner =>
              match inner with
              | .arr es => some es
              | _ => none
          | _ => none
      | none => none
  | _ => none

/-! ## File system and run model -/

/-- The file system: an association list from full paths to contents. -/
abbrev Fs := List (Str × Str)

/-- Content of the file at `p`, if it exists (`fs.existsSync` and
`fs.readFileSync`). -/
def lookupFs (fs : Fs) (p : Str) : Option Str :=
  (fs.find? (fun q => q.1 = p)).map (fun q => q.2)

/-- Whole-file write (`fs.writeFileSync`). -/
def writeFs : Fs → Str → Str → Fs
  | [], p, c => [(p, c)]
  | (q, d) :: t, p, c => if q = p then (p, c) :: t else (q, d) :: writeFs t p c

/-- One console line per run step. -/
inductive LogMsg where
  | errNoExport
  | errNotArray
  | warnNoMatch
  | skipExcluded (relativePath : Str)
  | warnMissing (path : Str)
  | okPatched (path : Str)
  | okCreated (path : Str)
  deriving Repr, DecidableEq

/-- Models `excludeDirs.some(dir => relativePath.split("/").includes(dir))`. -/
def excludedCheck (excludeDirs : List Str) (relativePath : Str) : Bool :=
  excludeDirs.any (fun dir => (relativePath.splitOn '/').contains dir)

/-- Target path: `path.join(viewsDir, relativePath (+ ".vue"))` for
already-normalized inputs. -/
def targetPath (viewsDir relativePath : Str) : Str :=
  viewsDir ++ '/' ::
    (if ".vue".data.isSuffixOf relativePath then relativePath
     else relativePath ++ ".vue".data)

/-- Processing of one matched route (source lines 125–191): exclusion
check, target resolution, existence check, then patch and write. -/
def processRoute (excludeDirs : List Str) (viewsDir : Str) (fs : Fs)
    (r : RouteItem) : Fs × LogMsg :=
  if excludedCheck excludeDirs r.relativePath then
    (fs, .skipExcluded r.relativePath)
  else
    let p := targetPath viewsDir r.relativePath
    match lookupFs fs p with
    | none => (fs, .warnMissing p)
    | some content =>
        (writeFs fs p (patchVue content r.name),
         if (scanScript content).isSome then .okPatched p else .okCreated p)

/-- The patcher stage over all matched routes, accumulating logs. -/
def runPatcher (excludeDirs : List Str) (viewsDir : Str) (fs : Fs)
    (routes : List RouteItem) : Fs × List LogMsg :=
  routes.foldl
    (fun st r =>
      let next := processRoute excludeDirs viewsDir st.1 r
      (next.1, st.2 ++ [next.2]))
    (fs, [])

/-- The whole run (source lines 24–192): locate the default export,
resolve the route array, extract, then patch.  `exportAssign` models
`getFirstDescendantByKind(ExportAssignment)?.getExpression()`; `env`
models identifier resolution to a variable initializer. -/
def injectRun (exportAssign : Option TsExpr) (env : Str → Option TsExpr)
    (excludeDirs : List Str) (viewsDir : Str) (fs : Fs) : Fs × List LogMsg :=
  match exportAssign with
  | none => (fs, [.errNoExport])
  | some e =>
      match resolveRouteArray env e with
      | none => (fs, [.errNotArray])
      | some elems =>
          let matched := extractRoutes elems
          if matched.isEmpty then (fs, [.warnNoMatch])
          else runPatcher excludeDirs viewsDir fs matched

/-! ## Text lemmas -/

theorem dropWhile_eq_drop (p : Char → Bool) (l : Str) :
    l.dropWhile p = l.drop (l.takeWhile p).length := by
  have h := List.takeWhile_append_dropWhile (p := p) (l := l)
  calc l.dropWhile p
      = ((l.takeWhile p) ++ (l.dropWhile p)).drop (l.takeWhile p).length :=
        (List.drop_left _ _).symm
    _ = l.drop (l.takeWhile p).length := by rw [h]

theorem dropWhile_head_false {p : Char → Bool} :
    ∀ {l : Str} {c : Char} {t : Str}, l.dropWhile p = c :: t → p c = false := by
  intro l
  induction l with
  | nil => intro c t h; simp [List.dropWhile] at h
  | cons a l ih =>
      intro c t h
      rw [List.dropWhile_cons] at h
      by_cases hp : p a = true
      · exact ih (by simpa [hp] using h)
      · rw [if_neg (by simp [hp])] at h
        obtain ⟨rfl, -⟩ := List.cons.inj h
        simpa using hp

theorem dropWhile_of_head_false {p : Char → Bool} {c : Char} {t : Str}
    (h : p c = false) : (c :: t).dropWhile p = c :: t := by
  rw [List.dropWhile_cons, if_neg (by simp [h])]

theorem dropWhile_dropWhile (p : Char → Bool) (l : Str) :
    (l.dropWhile p).dropWhile p = l.dropWhile p := by
  cases hl : l.dropWhile p with
  | nil => rfl
  | cons c t => exact dropWhile_of_head_false (dropWhile_head_false hl)

/-- A `takeWhile` over a block of `p`-chars followed by a failing char
stops exactly at the block. -/
theorem takeWhile_append_cons {p : Char → Bool} {w : Str} {c : Char} {y : Str}
    (hw : ∀ a ∈ w, p a = true) (hc : p c = false) :
    (w ++ c :: y).takeWhile p = w := by
  induction w with
  | nil => simpa [List.takeWhile_cons] using hc
  | cons a w ih =>
      have ha := hw a (List.mem_cons_self a w)
      rw [List.cons_append, List.takeWhile_cons, if_pos (by simp [ha])]
      rw [ih (fun b hb => hw b (List.mem_cons_of_mem a hb))]

/-- A `dropWhile` over a text with a failing char right after a block:
only the block's whitespace is removed. -/
theorem dropWhile_append_cons {p : Char → Bool} (x : Str) {c : Char} (y : Str)
    (hc : p c = false) :
    (x ++ c :: y).dropWhile p = x.dropWhile p ++ c :: y := by
  induction x with
  | nil => simp [dropWhile_of_head_false hc]
  | cons a x ih =>
      rw [List.cons_append, List.dropWhile_cons, List.dropWhile_cons]
      by_cases hp : p a = true
      · rw [if_pos hp, if_pos hp, ih]
      · rw [if_neg hp, if_neg hp, List.cons_append]

theorem takeWhile_length_le {p : Char → Bool} :
    ∀ {z : Str} {k : Nat} {c : Char} {y : Str},
      z.drop k = c :: y → p c = false → (z.takeWhile p).length ≤ k := by
  intro z
  induction z with
  | nil => intro k c y h hc; simp at h
  | cons a z ih =>
      intro k c y h hc
      cases k with
      | zero =>
          simp only [List.drop_zero] at h
          obtain ⟨rfl, -⟩ := List.cons.inj h
          rw [List.takeWhile_cons, if_neg (by simp [hc])]
          simp
      | succ k =>
          rw [List.drop_succ_cons] at h
          rw [List.takeWhile_cons]
          by_cases hp : p a = true
          · rw [if_pos (by simp [hp])]
            simpa using Nat.succ_le_succ (ih h hc)
          · rw [if_neg (by simp [hp])]
            simp

/-! ### trim -/

theorem trimStr_cons_ws {c : Char} {s : Str} (h : isWs c = true) :
    trimStr (c :: s) = trimStr s := by
  rw [trimStr, trimStr, List.dropWhile_cons, if_pos h]

theorem trimStr_append_ws {c : Char} {s : Str} (h : isWs c = true) :
    trimStr (s ++ [c]) = trimStr s := by
  rw [trimStr, trimStr, List.dropWhile_append]
  by_cases he : (s.dropWhile isWs).isEmpty = true
  · rw [if_pos he]
    have hnil : s.dropWhile isWs = [] := by simpa [List.isEmpty_iff] using he
    rw [hnil]
    simp [List.dropWhile_cons, h]
  · rw [if_neg he, List.reverse_append]
    simp only [List.reverse_cons, List.reverse_nil, List.nil_append,
      List.singleton_append, List.dropWhile_cons, if_pos h]

theorem trimStr_wrap (s : Str) :
    trimStr ('\n' :: (s ++ ['\n'])) = trimStr s := by
  rw [trimStr_cons_ws (by decide), trimStr_append_ws (by decide)]

theorem trimStr_trimStr (s : Str) : trimStr (trimStr s) = trimStr s := by
  have h1 : (trimStr s).dropWhile isWs = trimStr s := by
    cases hl : trimStr s with
    | nil => rfl
    | cons c t =>
        refine dropWhile_of_head_false ?_
        have hpre : trimStr s <+: s.dropWhile isWs := by
          rw [trimStr]
          have := List.dropWhile_suffix (l := (s.dropWhile isWs).reverse) isWs
          rw [← List.reverse_prefix] at this
          simpa using this
        rw [hl] at hpre
        obtain ⟨t2, ht2⟩ := hpre
        have hds : s.dropWhile isWs = c :: (t ++ t2) := by rw [← ht2]; simp
        exact dropWhile_head_false hds
  rw [trimStr, h1]
  have h2 : (trimStr s).reverse = ((s.dropWhile isWs).reverse).dropWhile isWs := by
    rw [trimStr, List.reverse_reverse]
  rw [h2, dropWhile_dropWhile, ← h2, List.reverse_reverse]

/-- A `dropWhile` over text whose middle block starts with a failing
char removes only the left part's prefix. -/
theorem dropWhile_append_block {p : Char → Bool} {x m y : Str} {c : Char}
    (hm : m.head? = some c) (hc : p c = false) :
    (x ++ m ++ y).dropWhile p = x.dropWhile p ++ m ++ y := by
  obtain ⟨m', rfl⟩ : ∃ m', m = c :: m' := by
    cases m with
    | nil => simp at hm
    | cons a t =>
        simp only [List.head?_cons, Option.some.injEq] at hm
        exact ⟨t, by rw [hm]⟩
  rw [List.append_assoc, List.cons_append, dropWhile_append_cons x (m' ++ y) hc]
  simp [List.append_assoc]

/-- Decomposition of `trimStr` around a middle block with non-whitespace
first and last characters. -/
theorem trimStr_decomp {A B D : Str} {d0 dl : Char}
    (h0w : D.head? = some d0) (h0 : isWs d0 = false)
    (hlw : D.getLast? = some dl) (hl : isWs dl = false) :
    trimStr (A ++ D ++ B) =
      A.dropWhile isWs ++ D ++ (B.reverse.dropWhile isWs).reverse := by
  rw [trimStr, dropWhile_append_block h0w h0]
  have hrev : (A.dropWhile isWs ++ D ++ B).reverse =
      B.reverse ++ D.reverse ++ (A.dropWhile isWs).reverse := by
    simp [List.reverse_append, List.append_assoc]
  rw [hrev]
  have hrevhead : D.reverse.head? = some dl := by
    rw [List.head?_reverse]; exact hlw
  rw [dropWhile_append_block hrevhead hl]
  simp [List.reverse_append]

/-! ### Prefix and occurrence helpers -/

theorem prefix_split {n a y : Str} (h : n <+: a ++ y) :
    (n.length ≤ a.length ∧ n <+: a) ∨
    (a.length ≤ n.length ∧ a <+: n ∧ n.drop a.length <+: y) := by
  obtain ⟨t, ht⟩ := h
  by_cases hl : n.length ≤ a.length
  · left
    refine ⟨hl, ?_⟩
    have hn : n = (a ++ y).take n.length := by
      rw [← ht, List.take_append_of_le_length (le_refl _) ]
      simp
    rw [hn, List.take_append_of_le_length hl]
    exact List.take_prefix _ _
  · right
    have hl' : a.length ≤ n.length := by omega
    refine ⟨hl', ?_, ?_⟩
    · have ha : a = (n ++ t).take a.length := by
        rw [ht, List.take_append_of_le_length (le_refl _)]
        simp
      rw [ha, List.take_append_of_le_length hl']
      exact List.take_prefix _ _
    · have hd : (n ++ t).drop a.length = (a ++ y).drop a.length := by rw [ht]
      rw [List.drop_append_of_le_length hl', List.drop_left] at hd
      exact ⟨t, hd⟩

theorem splitFirst_eq {hay needle a b : Str}
    (h : splitFirst hay needle = some (a, b)) : hay = a ++ needle ++ b := by
  induction hay generalizing a b with
  | nil =>
      rw [splitFirst] at h
      by_cases hp : needle.isPrefixOf ([] : Str) = true
      · rw [if_pos hp] at h
        have hn : needle = [] := by
          cases needle with
          | nil => rfl
          | cons c t => simp [List.isPrefixOf] at hp
        simp only [Option.some.injEq, Prod.mk.injEq] at h
        obtain ⟨ha, hb⟩ := h
        rw [← ha, ← hb, hn]
        simp
      · rw [if_neg hp] at h; simp at h
  | cons c t ih =>
      rw [splitFirst] at h
      by_cases hp : needle.isPrefixOf (c :: t) = true
      · rw [if_pos hp] at h
        simp only [Option.some.injEq, Prod.mk.injEq] at h
        obtain ⟨ha, hb⟩ := h
        obtain ⟨u, hu⟩ := List.isPrefixOf_iff_prefix.mp hp
        rw [← ha, ← hb, ← hu]
        simp [List.drop_left]
      · rw [if_neg hp] at h
        cases hrec : splitFirst t needle with
        | none => rw [hrec] at h; simp at h
        | some p =>
            obtain ⟨a', b'⟩ := p
            rw [hrec] at h
            simp only [Option.map_some', Option.some.injEq, Prod.mk.injEq] at h
            obtain ⟨ha, hb⟩ := h
            rw [← ha, ← hb, ih hrec]
            simp

theorem splitFirst_min {hay needle a b : Str}
    (h : splitFirst hay needle = some (a, b)) :
    ∀ j < a.length, ¬ needle <+: hay.drop j := by
  induction hay generalizing a b with
  | nil =>
      intro j hj hcontra
      rw [splitFirst] at h
      by_cases hp : needle.isPrefixOf ([] : Str) = true
      · rw [if_pos hp] at h
        simp only [Option.some.injEq, Prod.mk.injEq] at h
        obtain ⟨ha, -⟩ := h
        rw [← ha] at hj
        simp at hj
      · rw [if_neg hp] at h; simp at h
  | cons c t ih =>
      intro j hj hcontra
      rw [splitFirst] at h
      by_cases hp : needle.isPrefixOf (c :: t) = true
      · rw [if_pos hp] at h
        simp only [Option.some.injEq, Prod.mk.injEq] at h
        obtain ⟨ha, -⟩ := h
        rw [← ha] at hj
        simp at hj
      · rw [if_neg hp] at h
        cases hrec : splitFirst t needle with
        | none => rw [hrec] at h; simp at h
        | some p =>
            obtain ⟨a', b'⟩ := p
            rw [hrec] at h
            simp only [Option.map_some', Option.some.injEq, Prod.mk.injEq] at h
            obtain ⟨ha, -⟩ := h
            rw [← ha] at hj
            cases j with
            | zero =>
                simp only [List.drop_zero] at hcontra
                exact hp (List.isPrefixOf_iff_prefix.mpr hcontra)
            | succ j =>
                rw [List.drop_succ_cons] at hcontra
                exact ih hrec j (by simp at hj; omega) hcontra

theorem splitFirst_here {hay needle : Str}
    (hp : needle.isPrefixOf hay = true) :
    splitFirst hay needle = some ([], hay.drop needle.length) := by
  cases hay with
  | nil => rw [splitFirst, if_pos hp]
  | cons c t => rw [splitFirst, if_pos hp]

theorem splitFirst_cons_miss {c : Char} {t needle : Str}
    (hp : ¬ needle.isPrefixOf (c :: t) = true) :
    splitFirst (c :: t) needle =
      (splitFirst t needle).map (fun p => (c :: p.1, p.2)) := by
  rw [splitFirst, if_neg hp]

theorem splitFirst_isSome_iff {hay needle : Str} :
    (splitFirst hay needle).isSome = true ↔ ∃ j, needle <+: hay.drop j := by
  induction hay with
  | nil =>
      by_cases hp : needle.isPrefixOf ([] : Str) = true
      · rw [splitFirst_here hp]
        simp only [Option.isSome_some, true_iff]
        exact ⟨0, List.isPrefixOf_iff_prefix.mp hp⟩
      · rw [splitFirst]
        rw [if_neg hp]
        constructor
        · intro hs; simp at hs
        · rintro ⟨j, hj⟩
          rw [List.drop_nil] at hj
          exact absurd (List.isPrefixOf_iff_prefix.mpr hj) hp
  | cons c t ih =>
      by_cases hp : needle.isPrefixOf (c :: t) = true
      · rw [splitFirst_here hp]
        simp only [Option.isSome_some, true_iff]
        exact ⟨0, List.isPrefixOf_iff_prefix.mp hp⟩
      · rw [splitFirst_cons_miss hp]
        constructor
        · intro hs
          obtain ⟨j, hj⟩ := ih.mp (by
            cases hrec : splitFirst t needle with
            | none => rw [hrec] at hs; simp at hs
            | some p => simp)
          exact ⟨j + 1, by simpa [List.drop_succ_cons] using hj⟩
        · rintro ⟨j, hj⟩
          cases j with
          | zero =>
              rw [List.drop_zero] at hj
              exact absurd (List.isPrefixOf_iff_prefix.mpr hj) hp
          | succ j =>
              rw [List.drop_succ_cons] at hj
              have := ih.mpr ⟨j, hj⟩
              cases hrec : splitFirst t needle with
              | none => rw [hrec] at this; simp at this
              | some p => simp

theorem splitFirst_eq_of {hay needle a b : Str}
    (heq : hay = a ++ needle ++ b)
    (hmin : ∀ j < a.length, ¬ needle <+: hay.drop j) :
    splitFirst hay needle = some (a, b) := by
  induction a generalizing hay with
  | nil =>
      subst heq
      rw [List.nil_append] at hmin ⊢
      rw [splitFirst_here
            (List.isPrefixOf_iff_prefix.mpr (List.prefix_append _ _))]
      rw [List.drop_left]
  | cons c a' ih =>
      subst heq
      have h0 : ¬ needle <+: (c :: (a' ++ needle ++ b) : Str) := by
        have := hmin 0 (by simp)
        rw [List.drop_zero, List.cons_append, List.cons_append] at this
        exact this
      rw [List.cons_append, List.cons_append,
          splitFirst_cons_miss
            (fun hcon => h0 (List.isPrefixOf_iff_prefix.mp hcon))]
      rw [ih rfl (fun j hj hcon => by
        have := hmin (j + 1) (by simp; omega)
        rw [List.cons_append, List.cons_append, List.drop_succ_cons] at this
        exact this hcon)]
      rfl

theorem containsStr_eq_isSome (hay needle : Str) :
    containsStr hay needle = (splitFirst hay needle).isSome := by
  induction hay with
  | nil =>
      rw [containsStr, splitFirst]
      by_cases hp : needle.isPrefixOf ([] : Str) = true <;> simp [hp]
  | cons c t ih =>
      rw [containsStr, splitFirst]
      by_cases hp : needle.isPrefixOf (c :: t) = true
      · simp [hp]
      · simp only [hp, if_false, ih]
        cases splitFirst t needle <;> simp

theorem containsStr_iff {hay needle : Str} :
    containsStr hay needle = true ↔ ∃ j, needle <+: hay.drop j := by
  rw [containsStr_eq_isSome, splitFirst_isSome_iff]

theorem containsStr_false_iff {hay needle : Str} :
    containsStr hay needle = false ↔ ∀ j, ¬ needle <+: hay.drop j := by
  rw [← Bool.not_eq_true, containsStr_iff]
  push_neg
  rfl

theorem containsStr_of_eq {hay needle u v : Str} (heq : hay = u ++ needle ++ v) :
    containsStr hay needle = true := by
  refine containsStr_iff.mpr ⟨u.length, ?_⟩
  rw [heq, List.append_assoc, List.drop_left]
  exact List.prefix_append _ _

theorem containsStr_false_within {x y n : Str} (hinf : x <:+: y)
    (h : containsStr y n = false) : containsStr x n = false := by
  obtain ⟨u, v, huv⟩ := hinf
  rw [containsStr_false_iff] at h ⊢
  intro j hj
  by_cases hjx : j ≤ x.length
  · refine h (u.length + j) ?_
    have : y.drop (u.length + j) = x.drop j ++ v := by
      rw [← huv, List.append_assoc, List.drop_append,
          List.drop_append_of_le_length hjx]
    rw [this]
    exact hj.trans (List.prefix_append _ _)
  · rw [List.drop_of_length_le (by omega)] at hj
    have : n = [] := List.prefix_nil.mp hj
    refine h y.length ?_
    rw [List.drop_length, this]

/-! ### Substitution-free replacement strings -/

/-- Characters that make a `$`-pair active in `GetSubstitution`. -/
def isSpecial (c : Char) : Bool :=
  c = '$' || c = '&' || c = Char.ofNat 96 || c = '\''

def substFree : Str → Bool
  | [] => true
  | '$' :: c :: t => !isSpecial c && substFree (c :: t)
  | _ :: t => substFree t

theorem expandDollar_cons_ne {m pre post : Str} {c : Char} {t : Str}
    (hc : ¬ c = '$') :
    expandDollar m pre post (c :: t) = c :: expandDollar m pre post t := by
  rw [expandDollar.eq_def]
  split
  all_goals
    rename_i heq
    first
      | (simp at heq
         done)
      | (obtain ⟨h1, -⟩ := List.cons.inj heq
         exact absurd h1 hc)
      | (obtain ⟨h1, h2⟩ := List.cons.inj heq
         rw [h1, h2])

theorem substFree_cons_ne {c : Char} {t : Str} (hc : ¬ c = '$') :
    substFree (c :: t) = substFree t := by
  rw [substFree.eq_def]
  split
  all_goals
    rename_i heq
    first
      | (simp at heq
         done)
      | (obtain ⟨h1, -⟩ := List.cons.inj heq
         exact absurd h1 hc)
      | (obtain ⟨h1, h2⟩ := List.cons.inj heq
         rw [h2])

theorem expandDollar_singleton (m pre post : Str) (c : Char) :
    expandDollar m pre post [c] = [c] := by
  by_cases hc : c = '$'
  · subst hc; rfl
  · rw [expandDollar_cons_ne hc]; rfl

theorem substFree_singleton (c : Char) : substFree [c] = true := by
  by_cases hc : c = '$'
  · subst hc; rfl
  · rw [substFree_cons_ne hc]; rfl

theorem expandDollar_eq_self (m pre post : Str) :
    ∀ (r : Str), substFree r = true → expandDollar m pre post r = r := by
  intro r
  induction r using substFree.induct with
  | case1 => intro h; rfl
  | case2 c t ih =>
      intro h
      rw [substFree] at h
      simp only [Bool.and_eq_true, Bool.not_eq_true'] at h
      obtain ⟨hc, ht⟩ := h
      have h1 : ¬ c = '$' := by intro hcc; subst hcc; simp [isSpecial] at hc
      have h2 : ¬ c = '&' := by intro hcc; subst hcc; simp [isSpecial] at hc
      have h3 : ¬ c = Char.ofNat 96 := by
        intro hcc; subst hcc; simp [isSpecial] at hc
      have h4 : ¬ c = '\'' := by intro hcc; subst hcc; simp [isSpecial] at hc
      rw [expandDollar, if_neg h1, if_neg h2, if_neg h3, if_neg h4]
      rw [ih ht]
  | case3 c t hne ih =>
      intro h
      cases t with
      | nil => exact expandDollar_singleton m pre post c
      | cons t0 t' =>
          have hc : ¬ c = '$' := fun hcc => hne t0 t' hcc rfl
          rw [expandDollar_cons_ne hc]
          rw [ih (by rwa [substFree_cons_ne hc] at h)]

theorem substFree_append_right {x y : Str} (h : substFree (x ++ y) = true) :
    substFree y = true := by
  induction x using substFree.induct with
  | case1 => exact h
  | case2 c t ih =>
      rw [List.cons_append, List.cons_append, substFree] at h
      simp only [Bool.and_eq_true] at h
      exact ih h.2
  | case3 c t hne ih =>
      cases t with
      | nil =>
          cases y with
          | nil => rfl
          | cons y0 y' =>
              by_cases hc : c = '$'
              · subst hc
                rw [List.singleton_append, substFree] at h
                simp only [Bool.and_eq_true] at h
                exact h.2
              · rw [List.singleton_append, substFree_cons_ne hc] at h
                exact h
      | cons t0 t' =>
          have hc : ¬ c = '$' := fun hcc => hne t0 t' hcc rfl
          rw [List.cons_append, substFree_cons_ne hc] at h
          exact ih h

theorem substFree_append {x y : Str} (hx : substFree x = true)
    (hy : substFree y = true)
    (hb : ∀ c, y.head? = some c → isSpecial c = false) :
    substFree (x ++ y) = true := by
  induction x using substFree.induct with
  | case1 => exact hy
  | case2 c t ih =>
      rw [substFree] at hx
      simp only [Bool.and_eq_true] at hx
      rw [List.cons_append, List.cons_append, substFree]
      simp only [Bool.and_eq_true]
      exact ⟨hx.1, ih hx.2⟩
  | case3 c t hne ih =>
      cases t with
      | nil =>
          cases y with
          | nil => exact substFree_singleton c
          | cons y0 y' =>
              by_cases hc : c = '$'
              · subst hc
                rw [List.singleton_append, substFree]
                simp only [Bool.and_eq_true, Bool.not_eq_true']
                exact ⟨hb y0 rfl, hy⟩
              · rw [List.singleton_append, substFree_cons_ne hc]
                exact hy
      | cons t0 t' =>
          have hc : ¬ c = '$' := fun hcc => hne t0 t' hcc rfl
          rw [List.cons_append, substFree_cons_ne hc]
          rw [substFree_cons_ne hc] at hx
          exact ih hx

theorem substFree_append_left {x y : Str} (h : substFree (x ++ y) = true) :
    substFree x = true := by
  induction x using substFree.induct with
  | case1 => rfl
  | case2 c t ih =>
      rw [List.cons_append, List.cons_append, substFree] at h
      rw [substFree]
      simp only [Bool.and_eq_true] at h ⊢
      exact ⟨h.1, ih h.2⟩
  | case3 c t hne ih =>
      cases t with
      | nil => exact substFree_singleton c
      | cons t0 t' =>
          have hc : ¬ c = '$' := fun hcc => hne t0 t' hcc rfl
          rw [List.cons_append, substFree_cons_ne hc] at h
          rw [substFree_cons_ne hc]
          exact ih h

/-! ### Border facts for the fixed literals -/

theorem marker_no_border : ∀ k < 13, 0 < k → ¬ (marker.drop k) <+: marker := by
  decide

theorem openTag_no_border : ∀ k < 7, 0 < k → ¬ (openTag.drop k) <+: openTag := by
  decide

theorem closeTag_no_border : ∀ k < 9, 0 < k → ¬ (closeTag.drop k) <+: closeTag := by
  decide

/-- A word with no nontrivial border cannot overlap a copy of itself. -/
theorem self_overlap_kill {w z : Str} {k : Nat} (hk0 : 0 < k)
    (hk : k < w.length) (hno : ¬ (w.drop k) <+: w)
    (h : (w.drop k) <+: w ++ z) : False := by
  rcases prefix_split h with ⟨-, h2⟩ | ⟨h1, -, -⟩
  · exact hno h2
  · rw [List.length_drop] at h1; omega

theorem marker_length : marker.length = 13 := rfl
theorem openTag_length : openTag.length = 7 := rfl
theorem closeTag_length : closeTag.length = 9 := rfl

theorem defineLine_head (n : Str) : (defineLine n).head? = some 'd' := rfl

theorem defineLine_getLast (n : Str) : (defineLine n).getLast? = some ';' := by
  rw [defineLine, List.getLast?_append]
  rfl

/-! ### The loose defineOptions pattern -/

/-- All-whitespace segment. -/
def allWs (w : Str) : Prop := ∀ c ∈ w, isWs c = true
/-- Segment free of closing braces. -/
def noBr (w : Str) : Prop := ∀ c ∈ w, ¬ c = '}'

/-- Length consumed by the trailing `\s*;?` of the pattern on `tail`. -/
def semiExt (tail : Str) : Nat :=
  (tail.takeWhile isWs).length + semiTok (tail.drop (tail.takeWhile isWs).length)

theorem isPrefixOf_append (x y : Str) : x.isPrefixOf (x ++ y) = true :=
  List.isPrefixOf_iff_prefix.mpr (List.prefix_append x y)

theorem takeWhile_drop_decomp (p : Char → Bool) (l : Str) :
    l = l.takeWhile p ++ l.drop (l.takeWhile p).length := by
  conv_lhs => rw [← List.take_append_drop (l.takeWhile p).length l]
  congr 1
  exact (List.prefix_iff_eq_take.mp (List.takeWhile_prefix p)).symm

/-- Computation of the pattern matcher on an explicitly shaped text. -/
theorem tryDefAt_shape {w1 w2 bod w3 tail : Str}
    (h1 : allWs w1) (h2 : allWs w2) (hb : noBr bod) (h3 : allWs w3) :
    tryDefAt (marker ++ w1 ++ '(' :: w2 ++ '{' :: bod ++ '}' :: w3 ++ ')' :: tail) =
      some (17 + w1.length + w2.length + bod.length + w3.length + semiExt tail) := by
  have hS : marker ++ w1 ++ '(' :: w2 ++ '{' :: bod ++ '}' :: w3 ++ ')' :: tail =
      marker ++ (w1 ++ '(' :: (w2 ++ '{' :: (bod ++ '}' :: (w3 ++ ')' :: tail)))) := by
    simp [List.append_assoc]
  rw [tryDefAt, hS, if_pos (isPrefixOf_append _ _)]
  have e1 : (marker ++ (w1 ++ '(' :: (w2 ++ '{' :: (bod ++ '}' :: (w3 ++ ')' :: tail))))).drop 13 =
      w1 ++ '(' :: (w2 ++ '{' :: (bod ++ '}' :: (w3 ++ ')' :: tail))) := by
    rw [show (13 : Nat) = marker.length from rfl, List.drop_left]
  have e2 : (w1 ++ '(' :: (w2 ++ '{' :: (bod ++ '}' :: (w3 ++ ')' :: tail)))).takeWhile isWs = w1 :=
    takeWhile_append_cons (fun a ha => h1 a ha) (by decide)
  have e3 : (w2 ++ '{' :: (bod ++ '}' :: (w3 ++ ')' :: tail))).takeWhile isWs = w2 :=
    takeWhile_append_cons (fun a ha => h2 a ha) (by decide)
  have e4 : (bod ++ '}' :: (w3 ++ ')' :: tail)).takeWhile (fun c => decide (c ≠ '}')) = bod :=
    takeWhile_append_cons (fun a ha => by simpa using hb a ha) (by decide)
  have e5 : (w3 ++ ')' :: tail).takeWhile isWs = w3 :=
    takeWhile_append_cons (fun a ha => h3 a ha) (by decide)
  simp only [e1, e2, e3, e4, e5, List.drop_left]
  rw [semiExt]
  generalize semiTok (tail.drop (tail.takeWhile isWs).length) = m
  congr 1
  omega

/-- Soundness: a pattern match decomposes the text into the five
segments the regex consumes. -/
theorem tryDefAt_some {s : Str} {nl : Nat} (h : tryDefAt s = some nl) :
    ∃ w1 w2 bod w3 tail,
      s = marker ++ w1 ++ '(' :: w2 ++ '{' :: bod ++ '}' :: w3 ++ ')' :: tail ∧
      allWs w1 ∧ allWs w2 ∧ noBr bod ∧ allWs w3 ∧
      nl = 17 + w1.length + w2.length + bod.length + w3.length + semiExt tail := by
  rw [tryDefAt] at h
  by_cases hpre : marker.isPrefixOf s = true
  swap
  · rw [if_neg hpre] at h; simp at h
  rw [if_pos hpre] at h
  simp only [] at h
  split at h
  swap
  · simp at h
  rename_i r3 heq1
  split at h
  swap
  · simp at h
  rename_i r5 heq2
  split at h
  swap
  · simp at h
  rename_i r7 heq3
  split at h
  swap
  · simp at h
  rename_i r9 heq4
  simp only [Option.some.injEq] at h
  have hs0 : s = marker ++ s.drop 13 := by
    obtain ⟨r, hr⟩ := List.isPrefixOf_iff_prefix.mp hpre
    conv_lhs => rw [← hr]
    congr 1
    rw [← hr, show (13 : Nat) = marker.length from rfl, List.drop_left]
  have d1 := takeWhile_drop_decomp isWs (s.drop 13)
  rw [heq1] at d1
  have d2 := takeWhile_drop_decomp isWs r3
  rw [heq2] at d2
  have d3 := takeWhile_drop_decomp (fun c => decide (c ≠ '}')) r5
  rw [heq3] at d3
  have d4 := takeWhile_drop_decomp isWs r7
  rw [heq4] at d4
  refine ⟨(s.drop 13).takeWhile isWs, r3.takeWhile isWs,
          r5.takeWhile (fun c => decide (c ≠ '}')), r7.takeWhile isWs, r9,
          ?_, ?_, ?_, ?_, ?_, ?_⟩
  · calc s = marker ++ s.drop 13 := hs0
      _ = _ := by
        conv_lhs => rw [d1]
        conv_lhs => rw [d2]
        conv_lhs => rw [d3]
        conv_lhs => rw [d4]
        simp [List.append_assoc]
  · exact fun c hc => List.mem_takeWhile_imp hc
  · exact fun c hc => List.mem_takeWhile_imp hc
  · exact fun c hc => by simpa using List.mem_takeWhile_imp hc
  · exact fun c hc => List.mem_takeWhile_imp hc
  · rw [semiExt, ← h]
    generalize semiTok (r9.drop (r9.takeWhile isWs).length) = m
    omega

/-- Value of the pattern matcher on the injected statement itself: the
match extent is exactly the statement, for brace-free names. -/
theorem tryDefAt_defineLine {n : Str} (hn : noBr n) (rest : Str) :
    tryDefAt (defineLine n ++ rest) = some (defineLine n).length := by
  have l1 : "defineOptions(\x7b name: \"".data =
      marker ++ '(' :: '{' :: " name: \"".data := by rfl
  have l2 : "\" \x7d);".data = '\"' :: ' ' :: '}' :: ')' :: ';' :: ([] : Str) := by rfl
  have hshape : defineLine n ++ rest =
      marker ++ ([] : Str) ++ '(' :: ([] : Str) ++
        '{' :: (" name: \"".data ++ n ++ "\" ".data) ++ '}' :: ([] : Str) ++
        ')' :: (';' :: rest) := by
    rw [defineLine, l1, l2]
    simp [List.append_assoc]
  have hbod : noBr (" name: \"".data ++ n ++ "\" ".data) := by
    intro c hc
    simp only [List.mem_append] at hc
    rcases hc with (hc | hc) | hc
    · exact (by decide : ∀ x ∈ " name: \"".data, ¬ x = '}') c hc
    · exact hn c hc
    · exact (by decide : ∀ x ∈ "\" ".data, ¬ x = '}') c hc
  rw [hshape, tryDefAt_shape (by intro c hc; simp at hc) (by intro c hc; simp at hc)
        hbod (by intro c hc; simp at hc)]
  have hsemi : semiExt (';' :: rest) = 1 := by
    rw [semiExt]
    have : (';' :: rest).takeWhile isWs = [] := by
      rw [List.takeWhile_cons, if_neg (by decide)]
    rw [this]
    rfl
  rw [hsemi]
  congr 1
  simp [defineLine]
  omega

theorem semiTok_le (t : Str) : semiTok t ≤ 1 := by
  cases t with
  | nil => simp [semiTok]
  | cons c r =>
      by_cases hc : c = ';'
      · subst hc; simp [semiTok]
      · rw [semiTok.eq_def]
        split
        · simp
        · simp

theorem semiExt_le (tail : Str) : semiExt tail ≤ tail.length := by
  rw [semiExt]
  cases hd : tail.drop (tail.takeWhile isWs).length with
  | nil =>
      have : semiTok ([] : Str) = 0 := rfl
      rw [this]
      simpa using (List.takeWhile_prefix isWs (l := tail)).length_le
  | cons c r =>
      have h1 : (tail.takeWhile isWs).length + (c :: r).length = tail.length := by
        conv_rhs => rw [takeWhile_drop_decomp isWs tail]
        rw [hd, List.length_append]
      have := semiTok_le (c :: r)
      simp only [List.length_cons] at h1
      omega

theorem tryDefAt_le {s : Str} {nl : Nat} (h : tryDefAt s = some nl) :
    nl ≤ s.length := by
  obtain ⟨w1, w2, bod, w3, tail, hs, -, -, -, -, hnl⟩ := tryDefAt_some h
  have := semiExt_le tail
  rw [hs]
  simp only [List.length_append, List.length_cons, marker_length]
  omega

theorem tryDefAt_nil : tryDefAt ([] : Str) = none := by
  rw [tryDefAt, if_neg (by decide)]

/-- Soundness of the leftmost pattern search. -/
theorem findDef_eq {s a m b : Str} (h : findDef s = some (a, m, b)) :
    s = a ++ m ++ b ∧ tryDefAt (m ++ b) = some m.length ∧
    ∀ j < a.length, tryDefAt (s.drop j) = none := by
  induction s generalizing a m b with
  | nil => rw [findDef] at h; simp at h
  | cons c t ih =>
      rw [findDef] at h
      cases htry : tryDefAt (c :: t) with
      | some nlen =>
          rw [htry] at h
          simp only [Option.some.injEq, Prod.mk.injEq] at h
          obtain ⟨ha, hm, hb⟩ := h
          have hle : nlen ≤ (c :: t).length := tryDefAt_le htry
          have hmb : m ++ b = c :: t := by
            rw [← hm, ← hb, List.take_append_drop]
          have hml : m.length = nlen := by
            rw [← hm, List.length_take]
            omega
          refine ⟨by rw [← ha, List.nil_append, hmb], ?_, ?_⟩
          · rw [hmb, hml, htry]
          · intro j hj; rw [← ha] at hj; simp at hj
      | none =>
          rw [htry] at h
          cases hrec : findDef t with
          | none => rw [hrec] at h; simp at h
          | some p =>
              obtain ⟨a', m', b'⟩ := p
              rw [hrec] at h
              simp only [Option.map_some', Option.some.injEq, Prod.mk.injEq] at h
              obtain ⟨ha, hm, hb⟩ := h
              obtain ⟨ih1, ih2, ih3⟩ := ih hrec
              refine ⟨?_, ?_, ?_⟩
              · rw [← ha, ← hm, ← hb, List.cons_append, List.cons_append, ih1]
              · rw [← hm, ← hb]; exact ih2
              · intro j hj
                rw [← ha] at hj
                cases j with
                | zero => simpa using htry
                | succ j =>
                    rw [List.drop_succ_cons]
                    exact ih3 j (by simp at hj; omega)

/-- Characterization of the leftmost pattern search. -/
theorem findDef_eq_of {a : Str} : ∀ {s m b : Str},
    s = a ++ m ++ b → tryDefAt (m ++ b) = some m.length →
    (∀ j < a.length, tryDefAt (s.drop j) = none) →
    findDef s = some (a, m, b) := by
  induction a with
  | nil =>
      intro s m b heq hm hmin
      rw [List.nil_append] at heq
      subst heq
      cases hs : m ++ b with
      | nil =>
          rw [hs] at hm
          rw [tryDefAt_nil] at hm
          simp at hm
      | cons c t =>
          rw [findDef]
          have hm2 : tryDefAt (c :: t) = some m.length := by rw [← hs]; exact hm
          rw [hm2, ← hs]
          simp only [List.take_left, List.drop_left]
  | cons c a' ih =>
      intro s m b heq hm hmin
      subst heq
      have h0 : tryDefAt (c :: (a' ++ m ++ b)) = none := by
        have h00 := hmin 0 (by simp)
        rw [List.drop_zero] at h00
        simpa [List.append_assoc] using h00
      rw [List.cons_append, List.cons_append, findDef, h0]
      rw [ih rfl hm (fun j hj => by
        have := hmin (j + 1) (by simp; omega)
        rw [List.cons_append, List.cons_append, List.drop_succ_cons] at this
        exact this)]
      simp



/-- Completeness: a pattern match anywhere makes the search succeed. -/
theorem findDef_isSome_of : ∀ {s : Str} {j : Nat},
    (tryDefAt (s.drop j)).isSome = true → (findDef s).isSome = true := by
  intro s
  induction s with
  | nil =>
      intro j h
      rw [List.drop_nil, tryDefAt_nil] at h
      simp at h
  | cons c t ih =>
      intro j h
      cases j with
      | zero =>
          rw [List.drop_zero] at h
          rw [findDef]
          cases htry : tryDefAt (c :: t) with
          | some nlen => simp
          | none => rw [htry] at h; simp at h
      | succ j =>
          rw [List.drop_succ_cons] at h
          have := ih h
          rw [findDef]
          cases htry : tryDefAt (c :: t) with
          | some nlen => simp
          | none =>
              cases hrec : findDef t with
              | none => rw [hrec] at this; simp at this
              | some p => simp

theorem findDef_none {s : Str} (h : findDef s = none) :
    ∀ j, tryDefAt (s.drop j) = none := by
  intro j
  cases htry : tryDefAt (s.drop j) with
  | none => rfl
  | some nlen =>
      have := findDef_isSome_of (j := j) (by rw [htry]; simp)
      rw [h] at this
      simp at this

/-! ## Spec-side definitions for refinement claims -/

/-- Extraction as the spec describes a well-formed descriptor (C6): an
object literal whose `name` property value is a string literal and whose
`component` property value is an arrow function whose body is a dynamic
`import` of a string-literal path starting with `@/views/`; the emitted
route strips the alias prefix. -/
def specExtract (e : TsExpr) : Option RouteItem :=
  match e with
  | .obj props =>
      match props.find? (fun p => p.1 = "name".data),
            props.find? (fun p => p.1 = "component".data) with
      | some (_, .strLit n), some (_, .arrow (.call c [.strLit ip])) =>
          if c = "import".data ∧ viewsAlias.isPrefixOf ip then some ⟨n, ip.drop 8⟩
          else none
      | _, _ => none
  | _ => none

/-- A malformed descriptor as the spec describes one (C6): not an object
literal, or an object literal missing the `name` or the `component`
property. -/
def specMalformed (e : TsExpr) : Bool :=
  match e with
  | .obj props =>
      !(props.find? (fun p => p.1 = "name".data)).isSome ||
      !(props.find? (fun p => p.1 = "component".data)).isSome
  | _ => true

/-- Amended well-formed descriptor: as `specExtract`, but requiring a
*non-empty* name — the source's JS-falsy guard
`if (!nameText || !arrowFn) continue` (line 96) skips an empty `name`
string literal. -/
def specExtractNE (e : TsExpr) : Option RouteItem :=
  match e with
  | .obj props =>
      match props.find? (fun p => p.1 = "name".data),
            props.find? (fun p => p.1 = "component".data) with
      | some (_, .strLit n), some (_, .arrow (.call c [.strLit ip])) =>
          if n ≠ [] ∧ c = "import".data ∧ viewsAlias.isPrefixOf ip then
            some ⟨n, ip.drop 8⟩
          else none
      | _, _ => none
  | _ => none

/-- A skipped descriptor, covering every per-element skip category the
spec lists: not an object literal; missing `name` or `component`; no
string-literal descendant in `name`, or an empty one (the JS-falsy
skip); no arrow function in `component`; no dynamic `import` call or
one without arguments; a non-string-literal import argument; an import
path not starting with `@/views/`. -/
def specSkipped (e : TsExpr) : Bool :=
  match e with
  | .obj props =>
      match props.find? (fun p => p.1 = "name".data),
            props.find? (fun p => p.1 = "component".data) with
      | some np, some cp =>
          match firstStrLit np.2, firstArrow cp.2 with
          | some n, some a =>
              n.isEmpty ||
              (match firstImportCall a with
               | none => true
               | some args =>
                   match args.head? with
                   | none => true
                   | some a0 =>
                       match asStrLit a0 with
                       | none => true
                       | some ip => !(viewsAlias.isPrefixOf ip))
          | _, _ => true
      | _, _ => true
  | _ => true

theorem extractRoute_of_specExtractNE {e : TsExpr} {r : RouteItem}
    (h : specExtractNE e = some r) : extractRoute e = some r := by
  cases e with
  | obj props =>
      rw [specExtractNE] at h
      split at h
      · rename_i k1 n k2 c ip hf1 hf2
        split at h
        · rename_i hc
          obtain ⟨hne, hc1, hc2⟩ := hc
          subst hc1
          simp only [Option.some.injEq] at h
          subst h
          simp [extractRoute, hf1, hf2, firstStrLit, firstArrow, firstImportCall,
                asStrLit, hc2, hne]
          exact List.isPrefixOf_iff_prefix.mp hc2
        · simp at h
      · simp at h
  | strLit s => simp [specExtractNE] at h
  | ident n => simp [specExtractNE] at h
  | arrow b => simp [specExtractNE] at h
  | call c args => simp [specExtractNE] at h
  | arr es => simp [specExtractNE] at h
  | asE e => simp [specExtractNE] at h
  | other => simp [specExtractNE] at h

theorem extractRoute_of_specSkipped {e : TsExpr}
    (h : specSkipped e = true) : extractRoute e = none := by
  cases e with
  | obj props =>
      rw [specSkipped] at h
      cases hf1 : props.find? (fun p => p.1 = "name".data) with
      | none => simp [extractRoute, hf1]
      | some np =>
        cases hf2 : props.find? (fun p => p.1 = "component".data) with
        | none => simp [extractRoute, hf1, hf2]
        | some cp =>
          simp only [hf1, hf2] at h
          cases hn : firstStrLit np.2 with
          | none => simp [extractRoute, hf1, hf2, hn]
          | some n =>
            cases ha : firstArrow cp.2 with
            | none => simp [extractRoute, hf1, hf2, hn, ha]
            | some a =>
              simp only [hn, ha] at h
              by_cases hne : n = []
              · simp [extractRoute, hf1, hf2, hn, ha, hne]
              · have hie : n.isEmpty = false := by
                  cases n with
                  | nil => exact absurd rfl hne
                  | cons c t => rfl
                rw [hie] at h
                simp only [Bool.false_or] at h
                cases hic : firstImportCall a with
                | none => simp [extractRoute, hf1, hf2, hn, ha, hne, hic]
                | some args =>
                  simp only [hic] at h
                  cases ha0 : args.head? with
                  | none => simp [extractRoute, hf1, hf2, hn, ha, hne, hic, ha0]
                  | some a0 =>
                    simp only [ha0] at h
                    cases hip : asStrLit a0 with
                    | none =>
                        simp [extractRoute, hf1, hf2, hn, ha, hne, hic, ha0, hip]
                    | some ip =>
                        simp only [hip, Bool.not_eq_true'] at h
                        simp [extractRoute, hf1, hf2, hn, ha, hne, hic, ha0,
                              hip, h]
                        intro hp
                        rw [List.isPrefixOf_iff_prefix.mpr hp] at h
                        exact Bool.noConfusion h
  | strLit s => simp [extractRoute]
  | ident n => simp [extractRoute]
  | arrow b => simp [extractRoute]
  | call c args => simp [extractRoute]
  | arr es => simp [extractRoute]
  | asE e => simp [extractRoute]
  | other => simp [extractRoute]

theorem specExtractNE_eq_none_of_skipped {e : TsExpr}
    (h : specSkipped e = true) : specExtractNE e = none := by
  cases e with
  | obj props =>
      rw [specSkipped] at h
      rw [specExtractNE]
      split
      · rename_i k1 n k2 c ip hf1 hf2
        simp only [hf1, hf2, firstStrLit, firstArrow] at h
        by_cases hne : n = []
        · exact if_neg fun hcc => hcc.1 hne
        · have hie : n.isEmpty = false := by
            cases n with
            | nil => exact absurd rfl hne
            | cons c0 t => rfl
          rw [hie] at h
          simp only [Bool.false_or] at h
          by_cases hc : c = "import".data
          · subst hc
            simp [firstImportCall, asStrLit] at h
            refine if_neg fun hcc => ?_
            rw [hcc.2.2] at h
            exact Bool.noConfusion h
          · exact if_neg fun hcc => hc hcc.2.1
      · rfl
  | strLit s => rfl
  | ident n => rfl
  | arrow b => rfl
  | call c args => rfl
  | arr es => rfl
  | asE e => rfl
  | other => rfl

/-- The descriptor of the C6 counterexample: its `name` value is the
*empty* string literal, its `component` dynamically imports
`@/views/a`. -/
def descC6 : TsExpr :=
  .obj [("name".data, .strLit []),
        ("component".data, .arrow (.call "import".data [.strLit "@/views/a".data]))]

/-- C6 counterexample: `descC6` is well-formed in the claim's sense — an
object literal whose `name` is a string literal and whose `component` is
an arrow function dynamically importing an `@/views/`-prefixed path —
and not malformed, yet the extractor emits nothing for it: the source's
JS-falsy guard `!nameText` (line 96) silently skips the empty name, so
the array `[descC6]` has one well-formed descriptor but zero matched
routes. -/
theorem C6_counterexample :
    specExtract descC6 = some ⟨[], "a".data⟩ ∧
    specMalformed descC6 = false ∧
    extractRoutes [descC6] = [] := by decide

/-- C6 amended: for a route array whose elements are each either
well-formed *with a non-empty name* (the source skips JS-falsy empty
names) or skipped (not an object literal; missing `name`/`component`;
no string-literal name descendant, or an empty one; no arrow function;
no `import` call; a non-string import argument; or a path not starting
with `@/views/`), extraction emits exactly the well-formed descriptors'
routes, in array order, silently dropping the skipped elements. -/
theorem C6_extraction_completeness_amended (elems : List TsExpr)
    (h : ∀ e ∈ elems, (specExtractNE e).isSome ∨ specSkipped e = true) :
    extractRoutes elems = elems.filterMap specExtractNE ∧
    (extractRoutes elems).length =
      (elems.filter (fun e => (specExtractNE e).isSome)).length := by
  have main : extractRoutes elems = elems.filterMap specExtractNE := by
    induction elems with
    | nil => rfl
    | cons e t ih =>
        have he := h e (List.mem_cons_self e t)
        have ht := ih (fun x hx => h x (List.mem_cons_of_mem e hx))
        rw [extractRoutes] at ht ⊢
        rw [List.filterMap_cons, List.filterMap_cons]
        cases he with
        | inl hs =>
            obtain ⟨r, hr⟩ := Option.isSome_iff_exists.mp hs
            rw [hr, extractRoute_of_specExtractNE hr, ht]
        | inr hm =>
            rw [extractRoute_of_specSkipped hm,
                specExtractNE_eq_none_of_skipped hm, ht]
  refine ⟨main, ?_⟩
  rw [main, List.length_filterMap_eq_countP, List.countP_eq_length_filter]

/-- C6 amended witness: two well-formed descriptors interleaved with
skipped elements of four kinds — a non-object, a meta-only object, an
empty-name descriptor, and a non-`@/views/` import. -/
theorem C6_extraction_completeness_amended_witness :
    extractRoutes
        [.obj [("name".data, .strLit "A".data),
               ("component".data, .arrow (.call "import".data [.strLit "@/views/a".data]))],
         .other,
         .obj [("name".data, .strLit "Bad".data), ("meta".data, .obj [])],
         .obj [("name".data, .strLit []),
               ("component".data, .arrow (.call "import".data [.strLit "@/views/e".data]))],
         .obj [("name".data, .strLit "L".data),
               ("component".data, .arrow (.call "import".data [.strLit "@/layouts/l".data]))],
         .obj [("name".data, .strLit "B".data),
               ("component".data, .arrow (.call "import".data [.strLit "@/views/b/c".data]))]] =
      [⟨"A".data, "a".data⟩, ⟨"B".data, "b/c".data⟩] := by
  have := C6_extraction_completeness_amended
    [.obj [("name".data, .strLit "A".data),
           ("component".data, .arrow (.call "import".data [.strLit "@/views/a".data]))],
     .other,
     .obj [("name".data, .strLit "Bad".data), ("meta".data, .obj [])],
     .obj [("name".data, .strLit []),
           ("component".data, .arrow (.call "import".data [.strLit "@/views/e".data]))],
     .obj [("name".data, .strLit "L".data),
           ("component".data, .arrow (.call "import".data [.strLit "@/layouts/l".data]))],
     .obj [("name".data, .strLit "B".data),
           ("component".data, .arrow (.call "import".data [.strLit "@/views/b/c".data]))]]
    (by decide)
  rw [this.1]
  decide

/-- C7: with no default-export statement the run reports an error and
leaves the state unchanged; likewise when the exported expression does
not resolve to an array literal; and resolution succeeds exactly through
the three paths (direct array literal, type-asserted array literal, or
identifier whose initializer is one of those). -/
theorem C7_structural_failure (env : Str → Option TsExpr) (excl : List Str)
    (vd : Str) (fs : Fs) :
    injectRun none env excl vd fs = (fs, [.errNoExport]) ∧
    (∀ e, resolveRouteArray env e = none →
      injectRun (some e) env excl vd fs = (fs, [.errNotArray])) ∧
    (∀ e es, resolveRouteArray env e = some es ↔
      (e = .arr es ∨ e = .asE (.arr es) ∨
       ∃ n, e = .ident n ∧
         (env n = some (.arr es) ∨ env n = some (.asE (.arr es))))) := by
  refine ⟨rfl, fun e h => by simp [injectRun, h], fun e es => ⟨fun h => ?_, fun h => ?_⟩⟩
  · cases e with
    | arr es' => simp [resolveRouteArray] at h; simp [h]
    | asE inner =>
        cases inner <;> simp [resolveRouteArray] at h
        simp [h]
    | ident n =>
        cases henv : env n with
        | none => simp [resolveRouteArray, henv] at h
        | some init =>
            cases init <;> simp [resolveRouteArray, henv] at h
            case arr es' => exact Or.inr (Or.inr ⟨n, rfl, Or.inl (by rw [henv, h])⟩)
            case asE inner =>
                cases inner <;> simp at h
                exact Or.inr (Or.inr ⟨n, rfl, Or.inr (by rw [henv, h])⟩)
    | strLit s => simp [resolveRouteArray] at h
    | arrow b => simp [resolveRouteArray] at h
    | call c args => simp [resolveRouteArray] at h
    | obj props => simp [resolveRouteArray] at h
    | other => simp [resolveRouteArray] at h
  · rcases h with rfl | rfl | ⟨n, rfl, h2 | h2⟩
    · rfl
    · rfl
    · simp [resolveRouteArray, h2]
    · simp [resolveRouteArray, h2]

/-- C7 witness: a concrete missing export and a concrete unresolvable
export (an identifier with no definition). -/
theorem C7_structural_failure_witness :
    injectRun none (fun _ => none) [] [] [] = ([], [.errNoExport]) ∧
    injectRun (some .other) (fun _ => none) [] [] [] = ([], [.errNotArray]) :=
  ⟨(C7_structural_failure (fun _ => none) [] [] []).1,
   (C7_structural_failure (fun _ => none) [] [] []).2.1 .other rfl⟩

/-- C5: the exclusion test holds exactly when some excluded name equals a
whole `/`-separated segment of the relative path; an excluded route
leaves the file system unchanged; a non-excluded route with an existing
target gets its patched file written; `error/404` is excluded by
`["error"]` while `errorLogs/404` is not. -/
theorem C5_whole_segment_exclusion (excl : List Str) (vd : Str) (fs : Fs)
    (r : RouteItem) (c : Str) :
    (excludedCheck excl r.relativePath = true ↔
      ∃ d ∈ excl, d ∈ r.relativePath.splitOn '/') ∧
    (excludedCheck excl r.relativePath = true →
      processRoute excl vd fs r = (fs, .skipExcluded r.relativePath)) ∧
    (excludedCheck excl r.relativePath = false →
      lookupFs fs (targetPath vd r.relativePath) = some c →
      processRoute excl vd fs r =
        (writeFs fs (targetPath vd r.relativePath) (patchVue c r.name),
         if (scanScript c).isSome then .okPatched (targetPath vd r.relativePath)
         else .okCreated (targetPath vd r.relativePath))) ∧
    excludedCheck ["error".data] "error/404".data = true ∧
    excludedCheck ["error".data] "errorLogs/404".data = false := by
  refine ⟨?_, fun h => by simp [processRoute, h],
          fun h1 h2 => by simp [processRoute, h1, h2], by decide, by decide⟩
  simp [excludedCheck, List.any_eq_true]

/-- C5 witness: concrete exclusion and concrete processing. -/
theorem C5_whole_segment_exclusion_witness :
    processRoute ["error".data] "v".data [] ⟨"E".data, "error/404".data⟩ =
      ([], .skipExcluded "error/404".data) :=
  (C5_whole_segment_exclusion ["error".data] "v".data [] ⟨"E".data, "error/404".data⟩ []).2.1
    (by decide)

/-- C3 counterexample: a route whose dynamic import path is exactly the
alias `@/views/` is emitted with an *empty* relative path, refuting the
claimed invariant. -/
theorem C3_counterexample :
    ¬ ∀ r ∈ extractRoutes
        [.obj [("name".data, .strLit "N".data),
               ("component".data, .arrow (.call "import".data [.strLit "@/views/".data]))]],
        r.relativePath ≠ [] ∧ ¬ viewsAlias.isPrefixOf r.relativePath := by
  decide

/-- C3 amended: every emitted relative path is an alias-prefixed import
path with its first 8 characters (the alias) removed; it is non-empty
whenever the import path is longer than the alias. -/
theorem C3_relative_path_amended {elems : List TsExpr} {r : RouteItem}
    (h : r ∈ extractRoutes elems) :
    ∃ p : Str, viewsAlias.isPrefixOf p = true ∧ r.relativePath = p.drop 8 ∧
      (8 < p.length → r.relativePath ≠ []) := by
  obtain ⟨e, he, hx⟩ := List.mem_filterMap.mp h
  cases e with
  | obj props =>
      cases hnp : props.find? (fun p => p.1 = "name".data) with
      | none => simp [extractRoute, hnp] at hx
      | some np =>
        cases hcp : props.find? (fun p => p.1 = "component".data) with
        | none => simp [extractRoute, hnp, hcp] at hx
        | some cp =>
          cases hn : firstStrLit np.2 with
          | none => simp [extractRoute, hnp, hcp, hn] at hx
          | some n =>
            cases ha : firstArrow cp.2 with
            | none => simp [extractRoute, hnp, hcp, hn, ha] at hx
            | some af =>
              by_cases hne : n = []
              · simp [extractRoute, hnp, hcp, hn, ha, hne] at hx
              · cases hargs : firstImportCall af with
                | none => simp [extractRoute, hnp, hcp, hn, ha, hne, hargs] at hx
                | some args =>
                  cases ha0 : args.head? with
                  | none =>
                      simp [extractRoute, hnp, hcp, hn, ha, hne, hargs, ha0] at hx
                  | some a0 =>
                    cases hip : asStrLit a0 with
                    | none =>
                        simp [extractRoute, hnp, hcp, hn, ha, hne, hargs, ha0,
                              hip] at hx
                    | some ip =>
                      simp [extractRoute, hnp, hcp, hn, ha, hne, hargs, ha0,
                            hip] at hx
                      obtain ⟨hpre, hx2⟩ := hx
                      subst hx2
                      refine ⟨ip, List.isPrefixOf_iff_prefix.mpr hpre, rfl,
                              fun hlen => ?_⟩
                      have : 0 < (ip.drop 8).length := by
                        rw [List.length_drop]; omega
                      exact List.length_pos.mp this
  | strLit s => simp [extractRoute] at hx
  | ident n => simp [extractRoute] at hx
  | arrow b => simp [extractRoute] at hx
  | call c args => simp [extractRoute] at hx
  | arr es => simp [extractRoute] at hx
  | asE e => simp [extractRoute] at hx
  | other => simp [extractRoute] at hx

/-- C3 amended witness: a concrete emitted route. -/
theorem C3_relative_path_amended_witness :
    ∃ p : Str, viewsAlias.isPrefixOf p = true ∧
      (RouteItem.mk "N".data "user/x".data).relativePath = p.drop 8 ∧
      (8 < p.length → (RouteItem.mk "N".data "user/x".data).relativePath ≠ []) :=
  @C3_relative_path_amended
    [.obj [("name".data, .strLit "N".data),
           ("component".data, .arrow (.call "import".data
             [.strLit "@/views/user/x".data]))]]
    (RouteItem.mk "N".data "user/x".data)
    (by decide)

/-! ## The C1 scenario -/

/-- The route array of the C1 scenario. -/
def routeElemsC1 : List TsExpr :=
  [.obj [("name".data, .strLit "UserList".data),
         ("component".data, .arrow (.call "import".data
           [.strLit "@/views/user/list.vue".data]))],
   .obj [("name".data, .strLit "Bad".data), ("meta".data, .obj [])]]

/-- Target path of the C1 scenario's component file. -/
def vueTargetC1 : Str := targetPath "views".data "user/list.vue".data

/-- Initial file system of the C1 scenario. -/
def fsC1 : Fs := [(vueTargetC1, "<script>\nimport {ref} from 'x';\n</script>".data)]

/-- The C1 scenario run. -/
def runC1 : Fs × List LogMsg :=
  injectRun (some (.arr routeElemsC1)) (fun _ => none) [] "views".data fsC1

/-- C1 counterexample: the rewritten file is not the claimed content —
the injected line is separated from the import by a blank line, not a
single newline (`getEnd() + 1` already passes the newline after the
import, and the insertion adds `\n` on both sides of the statement). -/
theorem C1_counterexample :
    lookupFs runC1.1 vueTargetC1 ≠
      some "<script>\nimport {ref} from 'x';\ndefineOptions(\x7b name: \"UserList\" \x7d);\n</script>".data := by
  decide

/-- C1 amended: the run extracts exactly one matched route (`UserList`,
`user/list.vue`), silently drops `Bad`, and rewrites the file with the
injected line after the import, separated from it by a blank line. -/
theorem C1_scenario_amended :
    extractRoutes routeElemsC1 = [⟨"UserList".data, "user/list.vue".data⟩] ∧
    lookupFs runC1.1 vueTargetC1 =
      some "<script>\nimport {ref} from 'x';\n\ndefineOptions(\x7b name: \"UserList\" \x7d);\n</script>".data ∧
    runC1.2 = [.okPatched vueTargetC1] := by
  decide

/-! ## The patcher text lemmas and the C2, C4, C8, C9, C10 claims -/

/-- A text that the loose pattern fully matches from its start. -/
def DefShape (X : Str) : Prop :=
  ∃ x1 x2 xb x3 xr,
    X = marker ++ x1 ++ '(' :: x2 ++ '{' :: xb ++ '}' :: x3 ++ ')' :: xr ∧
    allWs x1 ∧ allWs x2 ∧ noBr xb ∧ allWs x3

theorem ws_not_brace {c : Char} (h : isWs c = true) : ¬ c = '}' := by
  intro hc; rw [hc] at h; exact absurd h (by decide)

theorem marker_noBr : noBr marker := by
  show ∀ c ∈ marker, ¬ c = '}'
  decide

theorem tryDefAt_ws_swap {u v1 v2 : Str} (h1 : allWs v1)
    (hs : (tryDefAt (u ++ v1)).isSome = true) :
    (tryDefAt (u ++ v2)).isSome = true := by
  obtain ⟨nl, hnl⟩ := Option.isSome_iff_exists.mp hs
  obtain ⟨w1, w2, bod, w3, tail, hdec, hw1, hw2, hbod, hw3, -⟩ := tryDefAt_some hnl
  have hdec1 : u ++ v1 =
      (marker ++ w1 ++ '(' :: w2 ++ '{' :: bod ++ '}' :: w3) ++ ')' :: tail := by
    rw [hdec]
  rcases List.append_eq_append_iff.mp hdec1 with ⟨a', ha1, ha2⟩ | ⟨k, hk1, hk2⟩
  · -- v1 = a' ++ ')' :: tail : the ')' would have to be whitespace
    have hm : ')' ∈ v1 := by rw [ha2]; simp
    exact absurd (h1 _ hm) (by decide)
  · cases k with
    | nil =>
        simp only [List.nil_append] at hk2
        have hm : ')' ∈ v1 := by rw [← hk2]; simp
        exact absurd (h1 _ hm) (by decide)
    | cons k0 k'' =>
        rw [List.cons_append] at hk2
        obtain ⟨hk0, htail⟩ := List.cons.inj hk2
        have hu : u ++ v2 = marker ++ w1 ++ '(' :: w2 ++ '{' :: bod ++ '}' :: w3 ++
            ')' :: (k'' ++ v2) := by
          rw [hk1, hk0]
          simp [List.append_assoc]
        rw [hu, tryDefAt_shape hw1 hw2 hbod hw3]
        simp

/-! ### Crossing-occurrence analysis -/

theorem prefix_head_eq {x y : Str} (h : x <+: y) (hx : x ≠ []) :
    y.head? = x.head? := by
  obtain ⟨t, ht⟩ := h
  rw [← ht, List.head?_append_of_ne_nil _ hx]

theorem suffix_getLast_eq {x y : Str} (h : x <:+ y) (hx : x ≠ []) :
    y.getLast? = x.getLast? := by
  obtain ⟨t, ht⟩ := h
  rw [← ht, List.getLast?_append_of_ne_nil _ hx]

theorem containsStr_of_prefix_drop {A n : Str} {j : Nat}
    (h : n <+: A.drop j) : containsStr A n = true :=
  containsStr_iff.mpr ⟨j, h⟩

/-- An occurrence inside an append is wholly in the left part, wholly in
the right part, or crosses the boundary: a nonempty proper needle prefix
ends the left part and the matching needle remainder starts the right
part. -/
theorem containsStr_append_split {A B n : Str}
    (h : containsStr (A ++ B) n = true) :
    containsStr A n = true ∨ containsStr B n = true ∨
      ∃ k, 0 < k ∧ k < n.length ∧ n.take k <:+ A ∧ n.drop k <+: B := by
  obtain ⟨j, hj⟩ := containsStr_iff.mp h
  by_cases hjA : j < A.length
  · rw [List.drop_append_of_le_length (Nat.le_of_lt hjA)] at hj
    rcases prefix_split hj with ⟨-, hnp⟩ | ⟨hl, hap, hdp⟩
    · exact Or.inl (containsStr_of_prefix_drop hnp)
    · by_cases hk : (A.drop j).length < n.length
      · refine Or.inr (Or.inr ⟨(A.drop j).length, ?_, hk, ?_, hdp⟩)
        · rw [List.length_drop]; omega
        · rw [← List.prefix_iff_eq_take.mp hap]
          exact ⟨A.take j, List.take_append_drop j A⟩
      · have heq : A.drop j = n := by
          refine List.IsPrefix.eq_of_length hap ?_
          omega
        refine Or.inl (containsStr_of_prefix_drop (j := j) ?_)
        rw [heq]
  · right; left
    have hj2 : (A ++ B).drop j = B.drop (j - A.length) := by
      have hsum : j = A.length + (j - A.length) := by omega
      conv_lhs => rw [hsum, List.drop_append (j - A.length)]
    rw [hj2] at hj
    exact containsStr_of_prefix_drop hj

/-- No occurrence when both parts are free and every boundary crossing
is refuted. -/
theorem containsStr_append_free {A B n : Str}
    (hA : containsStr A n = false) (hB : containsStr B n = false)
    (hcross : ∀ k, 0 < k → k < n.length →
      ¬ (n.take k <:+ A ∧ n.drop k <+: B)) :
    containsStr (A ++ B) n = false := by
  by_contra hcon
  rw [Bool.not_eq_false] at hcon
  rcases containsStr_append_split hcon with h1 | h2 | ⟨k, hk0, hkl, hs, hp⟩
  · rw [hA] at h1; exact absurd h1 (by decide)
  · rw [hB] at h2; exact absurd h2 (by decide)
  · exact hcross k hk0 hkl ⟨hs, hp⟩

/-- Crossing refuted through the right part's head character. -/
theorem containsStr_append_free_headB {A B n : Str} {b0 : Char}
    (hA : containsStr A n = false) (hB : containsStr B n = false)
    (hBh : B.head? = some b0)
    (hkill : ∀ k, 0 < k → k < n.length → (n.drop k).head? ≠ some b0) :
    containsStr (A ++ B) n = false := by
  refine containsStr_append_free hA hB (fun k hk0 hkl hand => ?_)
  obtain ⟨-, hp⟩ := hand
  have hne : n.drop k ≠ [] := by
    intro hnil
    have hlen := congrArg List.length hnil
    rw [List.length_drop, List.length_nil] at hlen
    omega
  exact hkill k hk0 hkl (by rw [← prefix_head_eq hp hne, hBh])

/-- Crossing refuted through the left part's last character. -/
theorem containsStr_append_free_lastA {A B n : Str} {a0 : Char}
    (hA : containsStr A n = false) (hB : containsStr B n = false)
    (hAl : A.getLast? = some a0)
    (hkill : ∀ k, 0 < k → k < n.length → (n.take k).getLast? ≠ some a0) :
    containsStr (A ++ B) n = false := by
  refine containsStr_append_free hA hB (fun k hk0 hkl hand => ?_)
  obtain ⟨hs, -⟩ := hand
  have hne : n.take k ≠ [] := by
    intro hnil
    have hlen := congrArg List.length hnil
    rw [List.length_take, List.length_nil] at hlen
    omega
  exact hkill k hk0 hkl (by rw [← suffix_getLast_eq hs hne, hAl])

/-- Crossing refuted by deciding that no proper needle prefix is a
suffix of the (literal) left part. -/
theorem containsStr_append_free_suffA {A B n : Str}
    (hA : containsStr A n = false) (hB : containsStr B n = false)
    (hkill : ∀ k, 0 < k → k < n.length → ¬ n.take k <:+ A) :
    containsStr (A ++ B) n = false :=
  containsStr_append_free hA hB (fun k hk0 hkl hand => hkill k hk0 hkl hand.1)

/-- Freeness under a prepended character that the needle does not
contain as its head. -/
theorem containsStr_cons_free {c : Char} {x n : Str}
    (hc : c ∉ n) (hx : containsStr x n = false) :
    containsStr (c :: x) n = false := by
  cases n with
  | nil =>
      have htrue : containsStr x [] = true := by
        rw [containsStr.eq_def, if_pos (by cases x <;> rfl)]
      rw [htrue] at hx
      exact absurd hx (by decide)
  | cons n0 n' =>
      rw [containsStr.eq_def]
      have hp : ¬ (n0 :: n').isPrefixOf (c :: x) = true := by
        intro hp
        obtain ⟨t, ht⟩ := List.isPrefixOf_iff_prefix.mp hp
        rw [List.cons_append] at ht
        obtain ⟨h1, -⟩ := List.cons.inj ht
        apply hc
        rw [← h1]
        exact List.mem_cons_self _ _
      rw [if_neg hp]
      exact hx

theorem closeTag_head : closeTag.head? = some '<' := rfl

theorem marker_head : marker.head? = some 'd' := rfl

/-- Freeness from the needle head character being absent. -/
theorem containsStr_false_of_head_notin {A n : Str} {h0 : Char}
    (hn : n.head? = some h0) (hA : h0 ∉ A) : containsStr A n = false := by
  rw [containsStr_false_iff]
  intro j hj
  cases n with
  | nil => simp at hn
  | cons c nt =>
      have hc : c = h0 := by simpa using hn
      subst hc
      obtain ⟨t, ht⟩ := hj
      rw [List.cons_append] at ht
      apply hA
      refine List.mem_of_mem_drop (l := A) (n := j) ?_
      rw [← ht]
      exact List.mem_cons_self _ _

/-- Freeness survives a one-character extension on the right when the
needle avoids that character. -/
theorem containsStr_snoc_free {x n : Str} {c : Char}
    (hx : containsStr x n = false) (hc : c ∉ n) (hn : n ≠ []) :
    containsStr (x ++ [c]) n = false := by
  refine containsStr_append_free hx ?_ ?_
  · rw [containsStr_false_iff]
    intro j hj
    cases j with
    | zero =>
        rw [List.drop_zero] at hj
        cases n with
        | nil => exact hn rfl
        | cons n0 nt =>
            obtain ⟨t, ht⟩ := hj
            rw [List.cons_append] at ht
            obtain ⟨h1, -⟩ := List.cons.inj ht
            apply hc
            rw [← h1]
            exact List.mem_cons_self _ _
    | succ j =>
        have hz : ([c] : Str).drop (j + 1) = [] := by simp
        rw [hz] at hj
        exact hn (List.prefix_nil.mp hj)
  · intro k hk0 hkn hand
    obtain ⟨-, hp⟩ := hand
    cases hdk : n.drop k with
    | nil =>
        have hlen := congrArg List.length hdk
        rw [List.length_drop, List.length_nil] at hlen
        omega
    | cons d dt =>
        rw [hdk] at hp
        obtain ⟨t, ht⟩ := hp
        rw [List.cons_append] at ht
        obtain ⟨h1, -⟩ := List.cons.inj ht
        apply hc
        rw [← h1]
        refine List.mem_of_mem_drop (l := n) (n := k) ?_
        rw [hdk]
        exact List.mem_cons_self _ _

/-- The needle placed after a free prefix, with boundary crossings into
the needle refuted, is the first occurrence. -/
theorem splitFirst_splice {A B n : Str}
    (hA : containsStr A n = false)
    (hnb : ∀ k, 0 < k → k < n.length → ¬ (n.drop k) <+: n ++ B) :
    splitFirst (A ++ n ++ B) n = some (A, B) := by
  refine splitFirst_eq_of rfl ?_
  intro j hj hcon
  rw [List.append_assoc, List.drop_append_of_le_length (Nat.le_of_lt hj)] at hcon
  rcases prefix_split hcon with ⟨-, hnp⟩ | ⟨hl, hap, hdp⟩
  · have := containsStr_of_prefix_drop hnp
    rw [hA] at this
    exact absurd this (by decide)
  · have hk0 : 0 < (A.drop j).length := by rw [List.length_drop]; omega
    by_cases hkn : (A.drop j).length < n.length
    · exact hnb _ hk0 hkn hdp
    · have heq : A.drop j = n := List.IsPrefix.eq_of_length hap (by omega)
      have := containsStr_of_prefix_drop (j := j) (n := n) (A := A) (by rw [heq])
      rw [hA] at this
      exact absurd this (by decide)

/-- First occurrence of the closing tag after a tag-free prefix. -/
theorem splitFirst_closeTag_splice {A B : Str}
    (hA : containsStr A closeTag = false) :
    splitFirst (A ++ closeTag ++ B) closeTag = some (A, B) :=
  splitFirst_splice hA (fun k hk0 hkn hp =>
    self_overlap_kill hk0 hkn (closeTag_no_border k hkn hk0) hp)

theorem tryDefAt_no_marker {s : Str}
    (h : ¬ marker.isPrefixOf s = true) : tryDefAt s = none := by
  rw [tryDefAt, if_neg h]

/-- No pattern match strictly inside a marker-free region followed by a
marker-led remainder. -/
theorem tryDefAt_none_before_marker {A Z : Str} {q : Nat}
    (hA : containsStr A marker = false) (hq : q < A.length) :
    tryDefAt (A.drop q ++ (marker ++ Z)) = none := by
  refine tryDefAt_no_marker ?_
  intro hp
  have hp2 : marker <+: A.drop q ++ (marker ++ Z) :=
    List.isPrefixOf_iff_prefix.mp hp
  rcases prefix_split hp2 with ⟨-, hnp⟩ | ⟨hl, hap, hdp⟩
  · have := containsStr_of_prefix_drop hnp
    rw [hA] at this
    exact absurd this (by decide)
  · have hk0 : 0 < (A.drop q).length := by rw [List.length_drop]; omega
    by_cases hkn : (A.drop q).length < marker.length
    · exact self_overlap_kill hk0 hkn (marker_no_border _ hkn hk0) hdp
    · have heq : A.drop q = marker := List.IsPrefix.eq_of_length hap (by omega)
      have := containsStr_of_prefix_drop (j := q) (n := marker) (A := A)
        (by rw [heq])
      rw [hA] at this
      exact absurd this (by decide)

/-- A text that the loose pattern matches in full from its start. -/
theorem DefShape_intro {X : Str} (x1 x2 xb x3 xr : Str)
    (hX : X = marker ++ x1 ++ '(' :: x2 ++ '{' :: xb ++ '}' :: x3 ++ ')' :: xr)
    (h1 : allWs x1) (h2 : allWs x2) (hb : noBr xb) (h3 : allWs x3) :
    DefShape X := ⟨x1, x2, xb, x3, xr, hX, h1, h2, hb, h3⟩

/-- The matched text of a successful pattern attempt has the pattern
shape in full. -/
theorem DefShape_of_tryDefAt {m b : Str}
    (h : tryDefAt (m ++ b) = some m.length) : DefShape m := by
  obtain ⟨w1, w2, bod, w3, tail, hdec, hw1, hw2, hbod, hw3, hlen⟩ :=
    tryDefAt_some h
  have hst : semiExt tail ≤ tail.length := semiExt_le tail
  have hmlen : m.length =
      (marker ++ w1 ++ '(' :: w2 ++ '{' :: bod ++ '}' :: w3 ++ [')']).length +
        semiExt tail := by
    simp [hlen, marker_length]
    omega
  have hm : m = marker ++ w1 ++ '(' :: w2 ++ '{' :: bod ++ '}' :: w3 ++
      ')' :: tail.take (semiExt tail) := by
    have hm1 : m = (m ++ b).take m.length := by
      rw [List.take_append_of_le_length (le_refl _)]
      simp
    have hshape : m ++ b =
        (marker ++ w1 ++ '(' :: w2 ++ '{' :: bod ++ '}' :: w3 ++ [')']) ++
          tail := by
      rw [hdec]
      simp [List.append_assoc]
    rw [hm1, hshape, hmlen, List.take_append]
    simp [List.append_assoc]
  exact DefShape_intro _ _ _ _ _ hm hw1 hw2 hbod hw3

/-- The injected statement has the pattern shape for brace-free names. -/
theorem DefShape_defineLine {n : Str} (hn : noBr n) :
    DefShape (defineLine n) := by
  refine DefShape_intro [] [] (" name: \"".data ++ n ++ ['\"', ' ']) [] [';']
    ?_ ?_ ?_ ?_ ?_
  · rw [defineLine]
    have l1 : "defineOptions(\x7b name: \"".data =
        marker ++ '(' :: '{' :: " name: \"".data := rfl
    have l2 : "\" \x7d);".data = '\"' :: ' ' :: '}' :: ')' :: ';' :: ([] : Str) :=
      rfl
    rw [l1, l2]
    simp [List.append_assoc]
  · intro c hc; cases hc
  · intro c hc; cases hc
  · intro c hc
    simp only [List.mem_append] at hc
    rcases hc with (hc | hc) | hc
    · exact (by decide : ∀ x ∈ " name: \"".data, ¬ x = '}') c hc
    · exact hn c hc
    · exact (by decide : ∀ x ∈ (['\"', ' '] : Str), ¬ x = '}') c hc
  · intro c hc; cases hc

theorem noBr_append {x y : Str} (hx : noBr x) (hy : noBr y) :
    noBr (x ++ y) := by
  intro c hc
  rcases List.mem_append.mp hc with h | h
  · exact hx c h
  · exact hy c h

theorem noBr_cons {c0 : Char} {x : Str} (hc : ¬ c0 = '}') (hx : noBr x) :
    noBr (c0 :: x) := by
  intro c hc2
  rcases List.mem_cons.mp hc2 with h | h
  · rw [h]; exact hc
  · exact hx c h

theorem allWs_noBr {x : Str} (h : allWs x) : noBr x :=
  fun c hc => ws_not_brace (h c hc)

/-- Transfer of a pattern hit across replacement of one full-shaped
matched text by another: when the pattern matches at the start of
`u ++ M2 ++ q2`, it also matches at the start of `u ++ M1 ++ q1`. -/
theorem tryDefAt_transfer {u M1 q1 M2 q2 : Str}
    (hM1 : DefShape M1) (hM2 : DefShape M2)
    (hs : (tryDefAt (u ++ M2 ++ q2)).isSome = true) :
    (tryDefAt (u ++ M1 ++ q1)).isSome = true := by
  obtain ⟨y1, y2, yb, y3, yr, hY, hy1, hy2, hyb, hy3⟩ := hM1
  obtain ⟨x1, x2, xb, x3, xr, hX, hx1, hx2, hxb, hx3⟩ := hM2
  have hWd : M2 ++ q2 = 'd' ::
      ("efineOptions".data ++ x1 ++ '(' :: x2 ++ '{' :: xb ++ '}' :: x3 ++
        ')' :: (xr ++ q2)) := by
    rw [hX, show marker = 'd' :: "efineOptions".data from rfl]
    simp [List.append_assoc]
  have hMX : M2 ++ q2 = marker ++
      (x1 ++ '(' :: x2 ++ '{' :: xb ++ '}' :: x3 ++ ')' :: (xr ++ q2)) := by
    rw [hX]
    simp [List.append_assoc]
  obtain ⟨nl, hnl⟩ := Option.isSome_iff_exists.mp hs
  obtain ⟨v1, v2, vb, v3, vt, hdec, hv1, hv2, hvb, hv3, -⟩ := tryDefAt_some hnl
  have hdec0 : u ++ (M2 ++ q2) = marker ++
      (v1 ++ '(' :: (v2 ++ '{' :: (vb ++ '}' :: (v3 ++ ')' :: vt)))) := by
    rw [← List.append_assoc, hdec]
    simp [List.append_assoc]
  rcases List.append_eq_append_iff.mp hdec0 with ⟨a0, ha1, ha2⟩ | ⟨c0, hc1, hc2⟩
  · -- `u` sits inside the literal marker: only `u = []` survives
    cases u with
    | nil =>
        have hgoal : ([] : Str) ++ M1 ++ q1 = marker ++ y1 ++ '(' :: y2 ++
            '{' :: yb ++ '}' :: y3 ++ ')' :: (yr ++ q1) := by
          rw [List.nil_append, hY]
          simp [List.append_assoc]
        rw [hgoal, tryDefAt_shape hy1 hy2 hyb hy3]
        simp
    | cons u0 u' =>
        exfalso
        cases a0 with
        | nil =>
            rw [List.nil_append, hWd] at ha2
            cases v1 with
            | nil =>
                rw [List.nil_append] at ha2
                exact absurd (List.cons.inj ha2).1 (by decide)
            | cons c v1' =>
                rw [List.cons_append] at ha2
                have hcd := (List.cons.inj ha2).1
                have hwsc := hv1 c (List.mem_cons_self _ _)
                rw [← hcd] at hwsc
                exact absurd hwsc (by decide)
        | cons b0 a0' =>
            have hk0 : 0 < (u0 :: u').length := by simp
            have hkn : (u0 :: u').length < marker.length := by
              have hlen := congrArg List.length ha1
              simp [marker_length] at hlen ⊢
              omega
            have hdropa : marker.drop (u0 :: u').length = b0 :: a0' := by
              rw [ha1, List.drop_left]
            have hpre : marker.drop (u0 :: u').length <+:
                marker ++ (x1 ++ '(' :: x2 ++ '{' :: xb ++ '}' :: x3 ++
                  ')' :: (xr ++ q2)) := by
              rw [hdropa, ← hMX]
              exact ⟨_, ha2.symm⟩
            exact self_overlap_kill hk0 hkn (marker_no_border _ hkn hk0) hpre
  · -- `u` extends past the marker; walk the four separator levels
    rcases List.append_eq_append_iff.mp hc2 with ⟨d, hd1, hd2⟩ | ⟨e, he1, he2⟩
    swap
    · -- the `(` would land inside the `\s*` run
      exfalso
      cases e with
      | nil =>
          rw [List.nil_append, hWd] at he2
          exact absurd (List.cons.inj he2).1 (by decide)
      | cons e0 e' =>
          rw [List.cons_append, hWd] at he2
          have hcd := (List.cons.inj he2).1
          have hwse := hv1 e0 (by rw [he1]; simp)
          rw [← hcd] at hwse
          exact absurd hwse (by decide)
    cases d with
    | nil =>
        exfalso
        rw [List.nil_append, hWd] at hd2
        exact absurd (List.cons.inj hd2).1 (by decide)
    | cons d0 d' =>
        rw [List.cons_append] at hd2
        obtain ⟨hd0, hR2⟩ := List.cons.inj hd2
        rcases List.append_eq_append_iff.mp hR2 with ⟨f, hf1, hf2⟩ | ⟨g, hg1, hg2⟩
        swap
        · -- the `{` would land inside the second `\s*` run
          exfalso
          cases g with
          | nil =>
              rw [List.nil_append, hWd] at hg2
              exact absurd (List.cons.inj hg2).1 (by decide)
          | cons g0 g' =>
              rw [List.cons_append, hWd] at hg2
              have hcd := (List.cons.inj hg2).1
              have hwsg := hv2 g0 (by rw [hg1]; simp)
              rw [← hcd] at hwsg
              exact absurd hwsg (by decide)
        cases f with
        | nil =>
            exfalso
            rw [List.nil_append, hWd] at hf2
            exact absurd (List.cons.inj hf2).1 (by decide)
        | cons f0 f' =>
            rw [List.cons_append] at hf2
            obtain ⟨hf0, hR3⟩ := List.cons.inj hf2
            rcases List.append_eq_append_iff.mp hR3 with
              ⟨g2, hg21, hg22⟩ | ⟨t, ht1, ht2⟩
            swap
            · -- the `[^}]*` body run reaches into `M2`: rebuild the body
              cases t with
              | nil =>
                  exfalso
                  rw [List.nil_append, hWd] at ht2
                  exact absurd (List.cons.inj ht2).1 (by decide)
              | cons t0 t' =>
                  have hu : u = marker ++ v1 ++ '(' :: v2 ++ '{' :: f' := by
                    rw [hc1, hd1, hf1, ← hd0, ← hf0]
                    simp [List.append_assoc]
                  have hfBr : noBr f' := by
                    intro c hc
                    exact hvb c (by rw [ht1]; simp [hc])
                  have hBOD : noBr (f' ++
                      (marker ++ y1 ++ '(' :: y2 ++ '{' :: yb)) :=
                    noBr_append hfBr
                      (noBr_append
                        (noBr_append
                          (noBr_append marker_noBr (allWs_noBr hy1))
                          (noBr_cons (by decide) (allWs_noBr hy2)))
                        (noBr_cons (by decide) hyb))
                  have hgoal : u ++ M1 ++ q1 = marker ++ v1 ++ '(' :: v2 ++
                      '{' :: (f' ++ (marker ++ y1 ++ '(' :: y2 ++ '{' :: yb)) ++
                      '}' :: y3 ++ ')' :: (yr ++ q1) := by
                    rw [hu, hY]
                    simp [List.append_assoc]
                  rw [hgoal, tryDefAt_shape hv1 hv2 hBOD hy3]
                  simp
            cases g2 with
            | nil =>
                exfalso
                rw [List.nil_append, hWd] at hg22
                exact absurd (List.cons.inj hg22).1 (by decide)
            | cons m0 m' =>
                rw [List.cons_append] at hg22
                obtain ⟨hm0, hR4⟩ := List.cons.inj hg22
                rcases List.append_eq_append_iff.mp hR4 with
                  ⟨z, hz1, hz2⟩ | ⟨r, hr1, hr2⟩
                swap
                · -- the `)` would land inside the third `\s*` run
                  exfalso
                  cases r with
                  | nil =>
                      rw [List.nil_append, hWd] at hr2
                      exact absurd (List.cons.inj hr2).1 (by decide)
                  | cons r0 r' =>
                      rw [List.cons_append, hWd] at hr2
                      have hcd := (List.cons.inj hr2).1
                      have hwsr := hv3 r0 (by rw [hr1]; simp)
                      rw [← hcd] at hwsr
                      exact absurd hwsr (by decide)
                cases z with
                | nil =>
                    exfalso
                    rw [List.nil_append, hWd] at hz2
                    exact absurd (List.cons.inj hz2).1 (by decide)
                | cons z0 z' =>
                    rw [List.cons_append] at hz2
                    obtain ⟨hz0, hvt2⟩ := List.cons.inj hz2
                    have hu : u = marker ++ v1 ++ '(' :: v2 ++ '{' :: vb ++
                        '}' :: v3 ++ ')' :: z' := by
                      rw [hc1, hd1, hf1, hg21, hz1, ← hd0, ← hf0, ← hm0, ← hz0]
                      simp [List.append_assoc]
                    have hgoal : u ++ M1 ++ q1 = marker ++ v1 ++ '(' :: v2 ++
                        '{' :: vb ++ '}' :: v3 ++ ')' :: (z' ++ M1 ++ q1) := by
                      rw [hu]
                      simp [List.append_assoc]
                    rw [hgoal, tryDefAt_shape hv1 hv2 hvb hv3]
                    simp

/-! ### The script-block matcher -/

theorem tryScriptAt_shape {a i post : Str}
    (ha : ∀ c ∈ a, ¬ c = '>') (hi : containsStr i closeTag = false) :
    tryScriptAt (openTag ++ a ++ '>' :: i ++ closeTag ++ post) =
      some (a, i, post) := by
  have hS : openTag ++ a ++ '>' :: i ++ closeTag ++ post =
      openTag ++ (a ++ '>' :: (i ++ closeTag ++ post)) := by
    simp [List.append_assoc]
  rw [tryScriptAt, hS, if_pos (isPrefixOf_append _ _)]
  simp only []
  have e1 : (openTag ++ (a ++ '>' :: (i ++ closeTag ++ post))).drop 7 =
      a ++ '>' :: (i ++ closeTag ++ post) := by
    rw [show (7 : Nat) = openTag.length from rfl, List.drop_left]
  have e2 : (a ++ '>' :: (i ++ closeTag ++ post)).takeWhile
      (fun c => decide (c ≠ '>')) = a :=
    takeWhile_append_cons (fun c hc => by simpa using ha c hc) (by decide)
  have e3 : splitFirst (i ++ closeTag ++ post) closeTag = some (i, post) :=
    splitFirst_closeTag_splice hi
  simp only [e1, e2, List.drop_left, e3]
  rfl

theorem tryScriptAt_some {s a i post : Str}
    (h : tryScriptAt s = some (a, i, post)) :
    s = openTag ++ a ++ '>' :: i ++ closeTag ++ post ∧
      (∀ c ∈ a, ¬ c = '>') ∧ containsStr i closeTag = false := by
  rw [tryScriptAt] at h
  by_cases hpre : openTag.isPrefixOf s = true
  swap
  · rw [if_neg hpre] at h; simp at h
  rw [if_pos hpre] at h
  simp only [] at h
  split at h
  swap
  · simp at h
  rename_i body heq1
  cases hsp : splitFirst body closeTag with
  | none => rw [hsp] at h; simp at h
  | some p =>
      obtain ⟨i2, post2⟩ := p
      rw [hsp] at h
      simp only [Option.map_some', Option.some.injEq, Prod.mk.injEq] at h
      obtain ⟨ha2, hi2, hp2⟩ := h
      have hs0 : s = openTag ++ s.drop 7 := by
        obtain ⟨r, hr⟩ := List.isPrefixOf_iff_prefix.mp hpre
        conv_lhs => rw [← hr]
        congr 1
        rw [← hr, show (7 : Nat) = openTag.length from rfl, List.drop_left]
      have d1 := takeWhile_drop_decomp (fun c => decide (c ≠ '>')) (s.drop 7)
      rw [heq1] at d1
      have hbody := splitFirst_eq hsp
      have hmin := splitFirst_min hsp
      refine ⟨?_, ?_, ?_⟩
      · calc s = openTag ++ s.drop 7 := hs0
          _ = _ := by
            conv_lhs => rw [d1]
            rw [hbody, ← ha2, ← hi2, ← hp2]
            simp [List.append_assoc]
      · intro c hc
        rw [← ha2] at hc
        simpa using List.mem_takeWhile_imp hc
      · rw [← hi2, containsStr_false_iff]
        intro j hj
        by_cases hjl : j < i2.length
        · refine hmin j hjl ?_
          rw [hbody, List.append_assoc,
              List.drop_append_of_le_length (Nat.le_of_lt hjl)]
          exact hj.trans (List.prefix_append _ _)
        · rw [List.drop_of_length_le (by omega)] at hj
          have := List.prefix_nil.mp hj
          exact absurd (congrArg List.length this) (by decide)

theorem tryScriptAt_isSome_openTag {s : Str} (h : (tryScriptAt s).isSome = true) :
    openTag <+: s := by
  rw [tryScriptAt] at h
  by_cases hpre : openTag.isPrefixOf s = true
  · exact List.isPrefixOf_iff_prefix.mp hpre
  · rw [if_neg hpre] at h; simp at h

/-- A full script block sitting as a prefix makes the matcher succeed. -/
theorem tryScriptAt_isSome_of_block {s a i : Str}
    (hp : (openTag ++ a ++ '>' :: i ++ closeTag) <+: s)
    (ha : ∀ c ∈ a, ¬ c = '>') :
    (tryScriptAt s).isSome = true := by
  obtain ⟨rest, hrest⟩ := hp
  have hs : s = openTag ++ (a ++ '>' :: (i ++ closeTag ++ rest)) := by
    rw [← hrest]
    simp [List.append_assoc]
  rw [hs, tryScriptAt, if_pos (isPrefixOf_append _ _)]
  simp only []
  have e1 : (openTag ++ (a ++ '>' :: (i ++ closeTag ++ rest))).drop 7 =
      a ++ '>' :: (i ++ closeTag ++ rest) := by
    rw [show (7 : Nat) = openTag.length from rfl, List.drop_left]
  have e2 : (a ++ '>' :: (i ++ closeTag ++ rest)).takeWhile
      (fun c => decide (c ≠ '>')) = a :=
    takeWhile_append_cons (fun c hc => by simpa using ha c hc) (by decide)
  simp only [e1, e2, List.drop_left]
  have hocc : (splitFirst (i ++ (closeTag ++ rest)) closeTag).isSome = true := by
    rw [← containsStr_eq_isSome]
    exact containsStr_of_eq (by rw [List.append_assoc])
  simpa using hocc

/-- A block of script shape: what the first patcher rewrite produces and
what it replaces. -/
def ScriptShape (X : Str) : Prop :=
  ∃ a i, X = openTag ++ a ++ '>' :: i ++ closeTag ∧ ∀ c ∈ a, ¬ c = '>'

theorem openTag_chars : ∀ c ∈ openTag, ¬ c = '>' := by decide

/-- When the scanned text already starts with a full `<script` literal
somewhere inside `u`, any following block of script shape yields a
match. -/
theorem tryScriptAt_isSome_big {u B1 q1 : Str} (hp : openTag <+: u)
    (hB1 : ScriptShape B1) : (tryScriptAt (u ++ B1 ++ q1)).isSome = true := by
  obtain ⟨a1, i1, hB, ha1⟩ := hB1
  obtain ⟨u2, hu2⟩ := hp
  have hs : u ++ B1 ++ q1 =
      openTag ++ ((u2 ++ openTag ++ a1) ++ '>' :: (i1 ++ closeTag ++ q1)) := by
    rw [← hu2, hB]
    simp [List.append_assoc]
  rw [hs, tryScriptAt, if_pos (isPrefixOf_append _ _)]
  simp only []
  have e1 : (openTag ++ ((u2 ++ openTag ++ a1) ++
      '>' :: (i1 ++ closeTag ++ q1))).drop 7 =
      (u2 ++ openTag ++ a1) ++ '>' :: (i1 ++ closeTag ++ q1) := by
    rw [show (7 : Nat) = openTag.length from rfl, List.drop_left]
  rw [e1]
  set r := (u2 ++ openTag ++ a1) ++ '>' :: (i1 ++ closeTag ++ q1) with hrdef
  set att := (r.takeWhile (fun c => decide (c ≠ '>'))).length with hattdef
  have hattle : att ≤ (u2 ++ openTag ++ a1).length := by
    refine takeWhile_length_le (c := '>') (y := i1 ++ closeTag ++ q1) ?_
      (by decide)
    rw [hrdef, List.drop_left]
  have hrlen : (u2 ++ openTag ++ a1).length < r.length := by
    rw [hrdef]
    simp
  have hne : r.drop att ≠ [] := by
    intro hnil
    have := congrArg List.length hnil
    rw [List.length_drop, List.length_nil] at this
    omega
  obtain ⟨c, b, hdw⟩ : ∃ c b, r.drop att = c :: b := by
    cases hcase : r.drop att with
    | nil => exact absurd hcase hne
    | cons c b => exact ⟨c, b, rfl⟩
  have hcgt : c = '>' := by
    have hfail := dropWhile_head_false
      (p := fun c => decide (c ≠ '>')) (l := r)
      (by rw [dropWhile_eq_drop, ← hattdef, hdw])
    simpa using hfail
  subst hcgt
  have hb : b = r.drop (att + 1) := by
    have hstep : ('>' :: b).drop 1 = (r.drop att).drop 1 := by rw [hdw]
    rw [List.drop_drop] at hstep
    simpa [Nat.add_comm] using hstep
  have hble : att + 1 ≤ ((u2 ++ openTag ++ a1) ++ ['>'] ++ i1).length := by
    have hattle2 := hattle
    simp at hattle2 ⊢
    omega
  have hocc : containsStr b closeTag = true := by
    have hr2 : r = ((u2 ++ openTag ++ a1) ++ ['>'] ++ i1) ++
        closeTag ++ q1 := by
      rw [hrdef]
      simp [List.append_assoc]
    have hbe : b = ((u2 ++ openTag ++ a1) ++ ['>'] ++ i1).drop (att + 1) ++
        (closeTag ++ q1) := by
      rw [hb, hr2, List.append_assoc, List.drop_append_of_le_length hble]
    exact containsStr_of_eq (by rw [hbe, ← List.append_assoc])
  rw [containsStr_eq_isSome] at hocc
  simp only [hdw]
  simpa using hocc

/-- Transfer of a script match across replacement of one block of script
shape by another. -/
theorem tryScriptAt_transfer {u B1 q1 B2 q2 : Str}
    (h1 : ScriptShape B1) (h2 : ScriptShape B2)
    (hs : (tryScriptAt (u ++ B2 ++ q2)).isSome = true) :
    (tryScriptAt (u ++ B1 ++ q1)).isSome = true := by
  have hpre2 : openTag <+: u ++ (B2 ++ q2) := by
    rw [← List.append_assoc]
    exact tryScriptAt_isSome_openTag hs
  rcases prefix_split hpre2 with ⟨hl, hp⟩ | ⟨hl, hup, hdp⟩
  · exact tryScriptAt_isSome_big hp h1
  · by_cases hu0 : u = []
    · subst hu0
      obtain ⟨a1, i1, hB, ha1⟩ := h1
      rw [List.nil_append]
      refine tryScriptAt_isSome_of_block (a := a1) (i := i1) ?_ ha1
      exact ⟨q1, by rw [hB]⟩
    · have hk0 : 0 < u.length := List.length_pos.mpr hu0
      by_cases hk7 : u.length < openTag.length
      · exfalso
        obtain ⟨a2, i2, hB2, ha2⟩ := h2
        have hdp2 : openTag.drop u.length <+:
            openTag ++ (a2 ++ '>' :: i2 ++ closeTag ++ q2) := by
          have hr : B2 ++ q2 =
              openTag ++ (a2 ++ '>' :: i2 ++ closeTag ++ q2) := by
            rw [hB2]
            simp [List.append_assoc]
          rw [← hr]
          exact hdp
        exact self_overlap_kill hk0 hk7 (openTag_no_border _ hk7 hk0) hdp2
      · have hueq : u = openTag := List.IsPrefix.eq_of_length hup (by omega)
        exact tryScriptAt_isSome_big (by rw [hueq]) h1

/-! ### The leftmost script search -/

/-- Soundness of the leftmost script search. -/
theorem scanScript_eq {s pre a i post : Str}
    (h : scanScript s = some (pre, a, i, post)) :
    s = pre ++ openTag ++ a ++ '>' :: i ++ closeTag ++ post ∧
      (∀ c ∈ a, ¬ c = '>') ∧ containsStr i closeTag = false ∧
      ∀ j < pre.length, tryScriptAt (s.drop j) = none := by
  induction s generalizing pre a i post with
  | nil => rw [scanScript] at h; simp at h
  | cons c t ih =>
      rw [scanScript] at h
      cases htry : tryScriptAt (c :: t) with
      | some p =>
          obtain ⟨a2, i2, post2⟩ := p
          rw [htry] at h
          simp only [Option.some.injEq, Prod.mk.injEq] at h
          obtain ⟨hpre, ha, hi, hp⟩ := h
          obtain ⟨hdec, haf, hif⟩ := tryScriptAt_some htry
          subst hpre
          rw [← ha, ← hi, ← hp]
          refine ⟨by simpa using hdec, haf, hif, ?_⟩
          intro j hj
          simp at hj
      | none =>
          rw [htry] at h
          cases hrec : scanScript t with
          | none => rw [hrec] at h; simp at h
          | some q =>
              obtain ⟨pre2, a2, i2, post2⟩ := q
              rw [hrec] at h
              simp only [Option.map_some', Option.some.injEq,
                Prod.mk.injEq] at h
              obtain ⟨hpre, ha, hi, hp⟩ := h
              obtain ⟨hdec, haf, hif, hmin⟩ := ih hrec
              rw [← hpre, ← ha, ← hi, ← hp]
              refine ⟨by rw [hdec]; simp, haf, hif, ?_⟩
              intro j hj
              cases j with
              | zero => rw [List.drop_zero]; exact htry
              | succ j =>
                  rw [List.drop_succ_cons]
                  refine hmin j ?_
                  simp at hj
                  omega

/-- Characterization of the leftmost script search. -/
theorem scanScript_eq_of {pre : Str} : ∀ {s a i post : Str},
    s = pre ++ (openTag ++ a ++ '>' :: i ++ closeTag ++ post) →
    tryScriptAt (openTag ++ a ++ '>' :: i ++ closeTag ++ post) =
      some (a, i, post) →
    (∀ j < pre.length, tryScriptAt (s.drop j) = none) →
    scanScript s = some (pre, a, i, post) := by
  induction pre with
  | nil =>
      intro s a i post heq htry hmin
      rw [List.nil_append] at heq
      subst heq
      rw [scanScript.eq_def]
      split
      · rename_i heqnil
        have hlen := congrArg List.length heqnil
        simp at hlen
      · rename_i c2 t2 heqcons
        rw [← heqcons, htry]
  | cons c pre2 ih =>
      intro s a i post heq htry hmin
      subst heq
      rw [List.cons_append, scanScript]
      have h0 : tryScriptAt (c :: (pre2 ++
          (openTag ++ a ++ '>' :: i ++ closeTag ++ post))) = none := by
        have := hmin 0 (by simp)
        rw [List.drop_zero, List.cons_append] at this
        exact this
      rw [h0]
      rw [ih rfl htry ?_]
      · rfl
      · intro j hj
        have := hmin (j + 1) (by simp; omega)
        rw [List.cons_append, List.drop_succ_cons] at this
        exact this

/-- Completeness: a script match anywhere makes the search succeed. -/
theorem scanScript_isSome_of : ∀ {s : Str} {j : Nat},
    (tryScriptAt (s.drop j)).isSome = true → (scanScript s).isSome = true := by
  intro s
  induction s with
  | nil =>
      intro j h
      rw [List.drop_nil] at h
      rw [show tryScriptAt [] = none from rfl] at h
      simp at h
  | cons c t ih =>
      intro j h
      cases j with
      | zero =>
          rw [List.drop_zero] at h
          rw [scanScript]
          cases htry : tryScriptAt (c :: t) with
          | some p => simp
          | none => rw [htry] at h; simp at h
      | succ j =>
          rw [List.drop_succ_cons] at h
          have := ih h
          rw [scanScript]
          cases htry : tryScriptAt (c :: t) with
          | some p => simp
          | none =>
              cases hrec : scanScript t with
              | none => rw [hrec] at this; simp at this
              | some q => simp

/-! ### Patcher path equations -/

theorem substFree_of_not_mem : ∀ {s : Str}, '$' ∉ s → substFree s = true := by
  intro s
  induction s using substFree.induct with
  | case1 => intro h; rfl
  | case2 c t ih =>
      intro h
      exact absurd (List.mem_cons_self _ _) h
  | case3 c t hne ih =>
      intro h
      by_cases hc : c = '$'
      · subst hc
        exact absurd (List.mem_cons_self _ _) h
      · rw [substFree_cons_ne hc]
        exact ih (fun hm => h (List.mem_cons_of_mem _ hm))

theorem replaceFirstDef_none {s r : Str} (h : findDef s = none) :
    replaceFirstDef s r = s := by
  rw [replaceFirstDef, h]

theorem replaceFirstDef_some {s r a m b : Str}
    (h : findDef s = some (a, m, b)) :
    replaceFirstDef s r = a ++ expandDollar m a b r ++ b := by
  rw [replaceFirstDef, h]

theorem patchVue_none {content n : Str} (h : scanScript content = none) :
    patchVue content n = "<script setup>\n".data ++ defineLine n ++
      "\n</script>\n".data ++ content := by
  rw [patchVue, h]

theorem patchVue_some {content pre a i post n : Str}
    (h : scanScript content = some (pre, a, i, post)) :
    patchVue content n = replaceFirstStr content
      (openTag ++ a ++ '>' :: i ++ closeTag)
      (openTag ++ a ++ '>' :: '\n' :: trimStr
        (if containsStr i marker then replaceFirstDef i (defineLine n)
         else insertDefine i n) ++ '\n' :: closeTag) := by
  rw [patchVue, h]

/-- The block the scan isolates is the first occurrence of its own text,
so the outer string replacement lands exactly on it. -/
theorem splitFirst_oldBlock {content pre a i post : Str}
    (h : scanScript content = some (pre, a, i, post)) :
    splitFirst content (openTag ++ a ++ '>' :: i ++ closeTag) =
      some (pre, post) := by
  obtain ⟨hdec, haf, hif, hmin⟩ := scanScript_eq h
  refine splitFirst_eq_of ?_ ?_
  · rw [hdec]
    simp [List.append_assoc]
  · intro j hj hcon
    have hsome := tryScriptAt_isSome_of_block hcon haf
    rw [hmin j hj] at hsome
    simp at hsome

/-- The patcher as a frame around the matched block. -/
theorem patchVue_frame {content pre a i post n : Str}
    (h : scanScript content = some (pre, a, i, post)) :
    patchVue content n = pre ++
      expandDollar (openTag ++ a ++ '>' :: i ++ closeTag) pre post
        (openTag ++ a ++ '>' :: '\n' :: trimStr
          (if containsStr i marker then replaceFirstDef i (defineLine n)
           else insertDefine i n) ++ '\n' :: closeTag) ++ post := by
  rw [patchVue_some h, replaceFirstStr, splitFirst_oldBlock h]

theorem defineLine_not_mem {c : Char} {n : Str} (hn : c ∉ n)
    (h1 : c ∉ "defineOptions(\x7b name: \"".data)
    (h2 : c ∉ "\" \x7d);".data) : c ∉ defineLine n := by
  intro hm
  rw [defineLine] at hm
  rcases List.mem_append.mp hm with hm | hm
  · rcases List.mem_append.mp hm with hm | hm
    · exact h1 hm
    · exact hn hm
  · exact h2 hm

/-- C10: marker detection is a raw substring test — when the first
script body contains the marker text but nothing matching the loose call
pattern, the patcher neither inserts nor replaces anything (the result
does not depend on the route name), yet still rewrites the file with the
script body trimmed. -/
theorem C10_marker_substring_false_positive {content pre a i post n : Str}
    (hscan : scanScript content = some (pre, a, i, post))
    (hmark : containsStr i marker = true)
    (hfind : findDef i = none) :
    patchVue content n = pre ++
      expandDollar (openTag ++ a ++ '>' :: i ++ closeTag) pre post
        (openTag ++ a ++ '>' :: '\n' :: trimStr i ++ '\n' :: closeTag) ++
      post := by
  rw [patchVue_frame hscan, if_pos hmark, replaceFirstDef_none hfind]

/-- C10 witness: a commented-out-style identifier containing the marker;
the file is rewritten trimmed, with no call inserted. -/
theorem C10_marker_substring_false_positive_witness :
    containsStr "  \nconst defineOptionsX = 1;  \n".data marker = true ∧
    findDef "  \nconst defineOptionsX = 1;  \n".data = none ∧
    patchVue "<script>  \nconst defineOptionsX = 1;  \n</script>after".data
        "N".data = [] ++
      expandDollar
        (openTag ++ [] ++ '>' :: "  \nconst defineOptionsX = 1;  \n".data ++
          closeTag) [] "after".data
        (openTag ++ [] ++ '>' :: '\n' ::
          trimStr "  \nconst defineOptionsX = 1;  \n".data ++
          '\n' :: closeTag) ++ "after".data :=
  ⟨by decide, by decide,
    C10_marker_substring_false_positive (by decide) (by decide) (by decide)⟩

/-- Synthesis run: with no script region the patcher prepends one fresh
setup block holding only the injected statement. -/
theorem patchVue_fresh {content n : Str}
    (hscan : scanScript content = none) (hn : '<' ∉ n) :
    patchVue content n = openTag ++ " setup".data ++ '>' ::
      ('\n' :: defineLine n ++ ['\n']) ++ closeTag ++ '\n' :: content ∧
    scanScript (patchVue content n) =
      some ([], " setup".data, '\n' :: defineLine n ++ ['\n'],
        '\n' :: content) := by
  have heq : patchVue content n = openTag ++ " setup".data ++ '>' ::
      ('\n' :: defineLine n ++ ['\n']) ++ closeTag ++ '\n' :: content := by
    rw [patchVue_none hscan]
    rw [show "<script setup>\n".data =
          openTag ++ " setup".data ++ ['>', '\n'] from rfl,
        show "\n</script>\n".data = '\n' :: closeTag ++ ['\n'] from rfl]
    simp [List.append_assoc]
  have hfree : containsStr ('\n' :: defineLine n ++ ['\n']) closeTag = false := by
    refine containsStr_false_of_head_notin closeTag_head ?_
    intro hm
    rcases List.mem_cons.mp hm with h | h
    · exact absurd h (by decide)
    · rcases List.mem_append.mp h with h | h
      · exact defineLine_not_mem hn (by decide) (by decide) h
      · exact absurd h (by decide)
  refine ⟨heq, ?_⟩
  rw [heq]
  refine scanScript_eq_of (by simp [List.append_assoc]) ?_ ?_
  · exact tryScriptAt_shape (by decide) hfree
  · intro j hj
    simp at hj

/-- C8: with no script region in the file, the patcher prepends exactly
one synthesized `<script setup>` block containing only the injected
statement, followed immediately by the original content unchanged; for
names free of `<`, the rewritten file's first script region is exactly
that block. -/
theorem C8_script_synthesis {content n : Str}
    (hscan : scanScript content = none) (hn : '<' ∉ n) :
    patchVue content n = openTag ++ " setup".data ++ '>' ::
      ('\n' :: defineLine n ++ ['\n']) ++ closeTag ++ '\n' :: content ∧
    scanScript (patchVue content n) =
      some ([], " setup".data, '\n' :: defineLine n ++ ['\n'],
        '\n' :: content) :=
  patchVue_fresh hscan hn

/-- C8 witness: a concrete file with no script tags. -/
theorem C8_script_synthesis_witness :
    patchVue "<template>x</template>".data "Pg".data = openTag ++
      " setup".data ++ '>' ::
      ('\n' :: defineLine "Pg".data ++ ['\n']) ++ closeTag ++
      '\n' :: "<template>x</template>".data ∧
    scanScript (patchVue "<template>x</template>".data "Pg".data) =
      some ([], " setup".data, '\n' :: defineLine "Pg".data ++ ['\n'],
        '\n' :: "<template>x</template>".data) :=
  C8_script_synthesis (by decide) (by decide)

/-- C4: every byte outside the first matched script block is preserved:
with a script match the output is the input's prefix, a rebuilt middle,
and the input's suffix; with no script match the output is a synthesized
block followed by the entire original content. -/
theorem C4_frame_preservation (content n : Str) :
    (∀ pre a i post, scanScript content = some (pre, a, i, post) →
      ∃ mid, patchVue content n = pre ++ mid ++ post) ∧
    (scanScript content = none →
      ∃ blk, patchVue content n = blk ++ content) := by
  constructor
  · intro pre a i post h
    exact ⟨_, patchVue_frame h⟩
  · intro h
    refine ⟨"<script setup>\n".data ++ defineLine n ++ "\n</script>\n".data, ?_⟩
    rw [patchVue_none h]

/-- C4 witness: concrete frame preservation around a matched block. -/
theorem C4_frame_preservation_witness :
    ∃ mid, patchVue "x<script>a</script>y".data "N".data =
      "x".data ++ mid ++ "y".data :=
  (C4_frame_preservation "x<script>a</script>y".data "N".data).1
    "x".data [] "a".data "y".data (by decide)

/-! ### Second-run facts: rebuilt block, trimmed statement splice -/

/-- Trim around an injected statement. -/
theorem trimStr_splice {X Y n : Str} :
    trimStr (X ++ defineLine n ++ Y) =
      X.dropWhile isWs ++ defineLine n ++ (Y.reverse.dropWhile isWs).reverse :=
  trimStr_decomp (defineLine_head n) (by decide) (defineLine_getLast n)
    (by decide)

theorem trimStr_defineLine (n : Str) : trimStr (defineLine n) = defineLine n := by
  have h := trimStr_splice (X := []) (Y := []) (n := n)
  simpa using h

theorem revtrim_idem (Y : Str) :
    (((Y.reverse.dropWhile isWs).reverse).reverse.dropWhile isWs).reverse =
      (Y.reverse.dropWhile isWs).reverse := by
  rw [List.reverse_reverse, dropWhile_dropWhile]

/-- The scan of a text whose first block's body was replaced by another
tag-free body. -/
theorem scanScript_swap {content pre a i post i2 : Str}
    (h : scanScript content = some (pre, a, i, post))
    (hi2 : containsStr i2 closeTag = false) :
    scanScript (pre ++ (openTag ++ a ++ '>' :: i2 ++ closeTag) ++ post) =
      some (pre, a, i2, post) := by
  obtain ⟨hdec, haf, hif, hmin⟩ := scanScript_eq h
  refine scanScript_eq_of (by simp [List.append_assoc])
    (tryScriptAt_shape haf hi2) ?_
  intro j hj
  by_contra hne
  have hsome : (tryScriptAt ((pre ++ (openTag ++ a ++ '>' :: i2 ++ closeTag) ++
      post).drop j)).isSome = true := Option.ne_none_iff_isSome.mp hne
  have hd2 : (pre ++ (openTag ++ a ++ '>' :: i2 ++ closeTag) ++ post).drop j =
      pre.drop j ++ (openTag ++ a ++ '>' :: i2 ++ closeTag) ++ post := by
    rw [List.append_assoc, List.drop_append_of_le_length (Nat.le_of_lt hj)]
    simp [List.append_assoc]
  rw [hd2] at hsome
  have htrans := @tryScriptAt_transfer (pre.drop j)
    (openTag ++ a ++ '>' :: i ++ closeTag) post
    (openTag ++ a ++ '>' :: i2 ++ closeTag) post
    ⟨a, i, rfl, haf⟩ ⟨a, i2, rfl, haf⟩ hsome
  have hold : content.drop j =
      pre.drop j ++ (openTag ++ a ++ '>' :: i ++ closeTag) ++ post := by
    rw [hdec, List.append_assoc, List.append_assoc, List.append_assoc,
        List.append_assoc]
    rw [List.drop_append_of_le_length (Nat.le_of_lt hj)]
    simp [List.append_assoc]
  rw [← hold] at htrans
  rw [hmin j hj] at htrans
  simp at htrans

theorem marker_not_prefix_of_head {c : Char} {t : Str} (hc : ¬ c = 'd') :
    tryDefAt (c :: t) = none := by
  refine tryDefAt_no_marker ?_
  intro hp
  obtain ⟨r, hr⟩ := List.isPrefixOf_iff_prefix.mp hp
  rw [show marker = 'd' :: "efineOptions".data from rfl,
      List.cons_append] at hr
  exact hc (List.cons.inj hr).1.symm

theorem findDef_cons_none {c : Char} {t : Str} (h : tryDefAt (c :: t) = none) :
    findDef (c :: t) =
      (findDef t).map (fun p => (c :: p.1, p.2.1, p.2.2)) := by
  rw [findDef, h]

theorem defineLine_marker (n : Str) :
    defineLine n = marker ++ ("(\x7b name: \"".data ++ n ++ "\" \x7d);".data) := by
  rw [defineLine]
  rw [show "defineOptions(\x7b name: \"".data = marker ++ "(\x7b name: \"".data
      from rfl]
  simp [List.append_assoc]

/-- The leftmost pattern search on a spliced statement, given that no
match starts inside the preceding segment. -/
theorem findDef_splice_min {X Y n : Str} (hn : noBr n)
    (hmin : ∀ p, p < X.length →
      tryDefAt (X.drop p ++ (defineLine n ++ Y)) = none) :
    findDef (X ++ defineLine n ++ Y) = some (X, defineLine n, Y) := by
  refine findDef_eq_of rfl (tryDefAt_defineLine hn Y) ?_
  intro j hj
  have hd : (X ++ defineLine n ++ Y).drop j =
      X.drop j ++ (defineLine n ++ Y) := by
    rw [List.append_assoc, List.drop_append_of_le_length (Nat.le_of_lt hj)]
  rw [hd]
  exact hmin j hj

/-- The wrapped form the rebuilt script body takes: a leading newline,
the spliced statement, material after. -/
theorem findDef_wrap_min {X Y n : Str} (hn : noBr n)
    (hmin : ∀ p, p < X.length →
      tryDefAt (X.drop p ++ (defineLine n ++ Y)) = none) :
    findDef ('\n' :: (X ++ defineLine n ++ Y)) =
      some ('\n' :: X, defineLine n, Y) := by
  rw [findDef_cons_none (marker_not_prefix_of_head (by decide)),
      findDef_splice_min hn hmin]
  rfl

/-- The wrapped search when the preceding segment is marker-free. -/
theorem findDef_wrap {X Y n : Str} (hn : noBr n)
    (hX : containsStr X marker = false) :
    findDef ('\n' :: (X ++ defineLine n ++ Y)) =
      some ('\n' :: X, defineLine n, Y) := by
  refine findDef_wrap_min hn ?_
  intro p hp
  rw [defineLine_marker, List.append_assoc]
  exact tryDefAt_none_before_marker hX hp

theorem noBr_of_not_mem {n : Str} (h : '}' ∉ n) : noBr n :=
  fun c hc hc2 => h (hc2 ▸ hc)

theorem defineLine_ne_nil (n : Str) : defineLine n ≠ [] := by
  intro h
  have := congrArg List.length h
  rw [defineLine] at this
  simp at this

/-- The closing tag does not occur through a spliced statement whose
flanks are tag-free, for names free of `<`. -/
theorem closeTag_free_splice {X Y n : Str}
    (hX : containsStr X closeTag = false)
    (hY : containsStr Y closeTag = false) (hn : '<' ∉ n) :
    containsStr (X ++ (defineLine n ++ Y)) closeTag = false := by
  have hdl : containsStr (defineLine n) closeTag = false :=
    containsStr_false_of_head_notin closeTag_head
      (defineLine_not_mem hn (by decide) (by decide))
  have hinner : containsStr (defineLine n ++ Y) closeTag = false := by
    refine containsStr_append_free_lastA hdl hY (defineLine_getLast n) ?_
    intro k hk0 hkl
    exact (by decide : ∀ j < 9, 0 < j →
      ¬ (closeTag.take j).getLast? = some ';') k hkl hk0
  have hh : (defineLine n ++ Y).head? = some 'd' := by
    rw [List.head?_append_of_ne_nil _ (defineLine_ne_nil n)]
    exact defineLine_head n
  refine containsStr_append_free_headB hX hinner hh ?_
  intro k hk0 hkl
  exact (by decide : ∀ j < 9, 0 < j →
    ¬ (closeTag.drop j).head? = some 'd') k hkl hk0

/-- Decomposition of the insertion site: the inserted statement between
two flanks drawn from the original body and newline characters. -/
theorem insertDefine_decomp {i : Str} (n : Str)
    (hm : containsStr i marker = false)
    (hct : containsStr i closeTag = false) :
    ∃ A B, insertDefine i n = A ++ defineLine n ++ B ∧
      containsStr A marker = false ∧ containsStr A closeTag = false ∧
      containsStr B marker = false ∧ containsStr B closeTag = false ∧
      (∀ c ∈ A, c ∈ i ∨ c = '\n') ∧ (∀ c ∈ B, c ∈ i ∨ c = '\n') := by
  rw [insertDefine]
  cases lastImportEnd i with
  | some e =>
      have htakeinf : i.take (e + 1) <:+: i := ⟨[], i.drop (e + 1), by simp⟩
      have hdropinf : i.drop (e + 1) <:+: i := ⟨i.take (e + 1), [], by simp⟩
      refine ⟨i.take (e + 1) ++ ['\n'], '\n' :: i.drop (e + 1),
        by simp [List.append_assoc], ?_, ?_, ?_, ?_, ?_, ?_⟩
      · exact containsStr_snoc_free (containsStr_false_within htakeinf hm)
          (by decide) (by decide)
      · exact containsStr_snoc_free (containsStr_false_within htakeinf hct)
          (by decide) (by decide)
      · exact containsStr_cons_free (by decide)
          (containsStr_false_within hdropinf hm)
      · exact containsStr_cons_free (by decide)
          (containsStr_false_within hdropinf hct)
      · intro c hc
        rcases List.mem_append.mp hc with h | h
        · exact Or.inl (List.mem_of_mem_take h)
        · right
          simpa using h
      · intro c hc
        rcases List.mem_cons.mp hc with h | h
        · exact Or.inr h
        · exact Or.inl (List.mem_of_mem_drop h)
  | none =>
      refine ⟨[], '\n' :: i, by simp, by decide, by decide, ?_, ?_, ?_, ?_⟩
      · exact containsStr_cons_free (by decide) hm
      · exact containsStr_cons_free (by decide) hct
      · intro c hc
        cases hc
      · intro c hc
        rcases List.mem_cons.mp hc with h | h
        · exact Or.inr h
        · exact Or.inl h

/-- The rebuilt script text is free of the substitution trigger when its
variable parts are. -/
theorem newScript_dollar_free {a M : Str} (hda : '$' ∉ a) (hdM : '$' ∉ M) :
    '$' ∉ openTag ++ a ++ '>' :: '\n' :: M ++ '\n' :: closeTag := by
  intro hm
  rcases List.mem_append.mp hm with hm | hm
  · rcases List.mem_append.mp hm with hm | hm
    · rcases List.mem_append.mp hm with hm | hm
      · exact absurd hm (by decide)
      · exact hda hm
    · rcases List.mem_cons.mp hm with hm | hm
      · exact absurd hm (by decide)
      · rcases List.mem_cons.mp hm with hm | hm
        · exact absurd hm (by decide)
        · exact hdM hm
  · rcases List.mem_cons.mp hm with hm | hm
    · exact absurd hm (by decide)
    · exact absurd hm (by decide)

/-- The spliced statement is free of the substitution trigger. -/
theorem splice_dollar_free {X Y n : Str} (hdX : '$' ∉ X) (hdY : '$' ∉ Y)
    (hdn : '$' ∉ n) : '$' ∉ X ++ defineLine n ++ Y := by
  have hdnl : '$' ∉ defineLine n :=
    defineLine_not_mem hdn (by decide) (by decide)
  intro hm
  rcases List.mem_append.mp hm with hm | hm
  · rcases List.mem_append.mp hm with hm | hm
    · exact hdX hm
    · exact hdnl hm
  · exact hdY hm

/-- Overwriting run: on a file whose first script block holds one
injected statement in trimmed position, the patcher replaces exactly
that statement with the new name's statement and leaves all else. -/
theorem patchVue_overwrite {pre a X Y post m n : Str}
    (hscan1 : scanScript (pre ++ (openTag ++ a ++ '>' ::
        ('\n' :: ((X ++ defineLine m ++ Y) ++ ['\n'])) ++ closeTag) ++ post) =
      some (pre, a, '\n' :: ((X ++ defineLine m ++ Y) ++ ['\n']), post))
    (hfind : findDef ('\n' :: ((X ++ defineLine m ++ Y) ++ ['\n'])) =
      some ('\n' :: X, defineLine m, Y ++ ['\n']))
    (hXw : X.dropWhile isWs = X)
    (hYw : (Y.reverse.dropWhile isWs).reverse = Y)
    (hda : '$' ∉ a) (hdX : '$' ∉ X) (hdY : '$' ∉ Y) (hdn : '$' ∉ n) :
    patchVue (pre ++ (openTag ++ a ++ '>' ::
        ('\n' :: ((X ++ defineLine m ++ Y) ++ ['\n'])) ++ closeTag) ++ post) n =
      pre ++ (openTag ++ a ++ '>' ::
        ('\n' :: ((X ++ defineLine n ++ Y) ++ ['\n'])) ++ closeTag) ++ post := by
  have hdnl : '$' ∉ defineLine n :=
    defineLine_not_mem hdn (by decide) (by decide)
  rw [patchVue_frame hscan1]
  have hcm : containsStr ('\n' :: ((X ++ defineLine m ++ Y) ++ ['\n']))
      marker = true := by
    refine containsStr_of_eq (u := '\n' :: X)
      (v := "(\x7b name: \"".data ++ m ++ "\" \x7d);".data ++ (Y ++ ['\n'])) ?_
    rw [defineLine_marker m]
    simp [List.append_assoc]
  rw [if_pos hcm, replaceFirstDef_some hfind,
      expandDollar_eq_self _ _ _ _ (substFree_of_not_mem hdnl)]
  have htr : trimStr ('\n' :: X ++ defineLine n ++ (Y ++ ['\n'])) =
      X ++ defineLine n ++ Y := by
    have h1 : '\n' :: X ++ defineLine n ++ (Y ++ ['\n']) =
        '\n' :: ((X ++ defineLine n ++ Y) ++ ['\n']) := by
      simp [List.append_assoc]
    rw [h1, trimStr_wrap, trimStr_splice, hXw, hYw]
  rw [htr]
  have hnotm : '$' ∉ openTag ++ a ++ '>' :: '\n' ::
      (X ++ defineLine n ++ Y) ++ '\n' :: closeTag :=
    newScript_dollar_free hda (splice_dollar_free hdX hdY hdn)
  have hsub : substFree (openTag ++ a ++ '>' :: '\n' ::
      (X ++ defineLine n ++ Y) ++ '\n' :: closeTag) = true :=
    substFree_of_not_mem hnotm
  rw [expandDollar_eq_self _ _ _ _ hsub]
  simp [List.append_assoc]

theorem revtrim_decomp (B : Str) :
    ∃ w, B = (B.reverse.dropWhile isWs).reverse ++ w ∧ allWs w := by
  refine ⟨(B.reverse.takeWhile isWs).reverse, ?_, ?_⟩
  · conv_lhs => rw [← List.reverse_reverse B]
    conv_lhs =>
      rw [← List.takeWhile_append_dropWhile (p := isWs) (l := B.reverse)]
    rw [List.reverse_append]
  · intro c hc
    exact List.mem_takeWhile_imp (List.mem_reverse.mp hc)

theorem mem_dropWhile_ws {c : Char} {x : Str} (h : c ∈ x.dropWhile isWs) :
    c ∈ x := by
  rw [dropWhile_eq_drop] at h
  exact List.mem_of_mem_drop h

theorem mem_revtrim {c : Char} {x : Str}
    (h : c ∈ (x.reverse.dropWhile isWs).reverse) : c ∈ x := by
  rw [List.mem_reverse] at h
  exact List.mem_reverse.mp (mem_dropWhile_ws h)

theorem dropWhile_ws_within (x : Str) : x.dropWhile isWs <:+: x := by
  rw [dropWhile_eq_drop]
  exact ⟨x.take (x.takeWhile isWs).length, [], by simp⟩

theorem revtrim_within (x : Str) :
    (x.reverse.dropWhile isWs).reverse <:+: x := by
  obtain ⟨w, hw, -⟩ := revtrim_decomp x
  exact ⟨[], w, by rw [List.nil_append, ← hw]⟩

theorem containsStr_within_of {x y n : Str} (hinf : x <:+: y)
    (h : containsStr x n = true) : containsStr y n = true := by
  by_contra h2
  rw [Bool.not_eq_true] at h2
  rw [containsStr_false_within hinf h2] at h
  exact absurd h (by decide)

/-- First run on a block whose body is marker-free: the statement is
inserted, and the output carries exactly one statement in trimmed
position inside the rebuilt block. -/
theorem patchVue_insert {content pre a i post n : Str}
    (hscan : scanScript content = some (pre, a, i, post))
    (hmark : containsStr i marker = false)
    (hdc : '$' ∉ content) (hdn : '$' ∉ n) (hbr : '}' ∉ n) (hlt : '<' ∉ n) :
    ∃ X Y,
      patchVue content n = pre ++ (openTag ++ a ++ '>' ::
        ('\n' :: ((X ++ defineLine n ++ Y) ++ ['\n'])) ++ closeTag) ++ post ∧
      scanScript (patchVue content n) =
        some (pre, a, '\n' :: ((X ++ defineLine n ++ Y) ++ ['\n']), post) ∧
      findDef ('\n' :: ((X ++ defineLine n ++ Y) ++ ['\n'])) =
        some ('\n' :: X, defineLine n, Y ++ ['\n']) ∧
      X.dropWhile isWs = X ∧ (Y.reverse.dropWhile isWs).reverse = Y ∧
      '$' ∉ a ∧ '$' ∉ X ∧ '$' ∉ Y ∧
      containsStr X marker = false ∧ containsStr Y marker = false ∧
      (∀ c ∈ X, c ∈ i ∨ c = '\n') ∧ (∀ c ∈ Y, c ∈ i ∨ c = '\n') := by
  obtain ⟨hdec, haf, hic, hminS⟩ := scanScript_eq hscan
  obtain ⟨A, B, hins, hAm, hAc, hBm, hBc, hAmem, hBmem⟩ :=
    insertDefine_decomp n hmark hic
  refine ⟨A.dropWhile isWs, (B.reverse.dropWhile isWs).reverse, ?_⟩
  set X := A.dropWhile isWs with hXdef
  set Y := (B.reverse.dropWhile isWs).reverse with hYdef
  have hXmem : ∀ c ∈ X, c ∈ i ∨ c = '\n' :=
    fun c hc => hAmem c (mem_dropWhile_ws hc)
  have hYmem : ∀ c ∈ Y, c ∈ i ∨ c = '\n' :=
    fun c hc => hBmem c (mem_revtrim hc)
  have hia : '$' ∉ a := by
    intro hm
    apply hdc
    rw [hdec]
    simp only [List.mem_append, List.mem_cons]
    tauto
  have hii : '$' ∉ i := by
    intro hm
    apply hdc
    rw [hdec]
    simp only [List.mem_append, List.mem_cons]
    tauto
  have hiX : '$' ∉ X := fun hm =>
    (hXmem _ hm).elim (fun h => hii h) (fun h => absurd h (by decide))
  have hiY : '$' ∉ Y := fun hm =>
    (hYmem _ hm).elim (fun h => hii h) (fun h => absurd h (by decide))
  have hXm : containsStr X marker = false :=
    containsStr_false_within (dropWhile_ws_within A) hAm
  have hXc2 : containsStr X closeTag = false :=
    containsStr_false_within (dropWhile_ws_within A) hAc
  have hYm : containsStr Y marker = false :=
    containsStr_false_within (revtrim_within B) hBm
  have hYc2 : containsStr Y closeTag = false :=
    containsStr_false_within (revtrim_within B) hBc
  have hXw : X.dropWhile isWs = X := dropWhile_dropWhile isWs A
  have hYw : (Y.reverse.dropWhile isWs).reverse = Y := revtrim_idem B
  have htr : trimStr (insertDefine i n) = X ++ defineLine n ++ Y := by
    rw [hins, trimStr_splice]
  have hi2c : containsStr ('\n' :: ((X ++ defineLine n ++ Y) ++ ['\n']))
      closeTag = false := by
    refine containsStr_cons_free (by decide) ?_
    refine containsStr_snoc_free ?_ (by decide) (by decide)
    have h := closeTag_free_splice hXc2 hYc2 hlt
    rw [← List.append_assoc] at h
    exact h
  have hout : patchVue content n = pre ++ (openTag ++ a ++ '>' ::
      ('\n' :: ((X ++ defineLine n ++ Y) ++ ['\n'])) ++ closeTag) ++ post := by
    rw [patchVue_frame hscan, if_neg (by simp [hmark]), htr,
        expandDollar_eq_self _ _ _ _
          (substFree_of_not_mem (newScript_dollar_free hia (splice_dollar_free hiX hiY hdn)))]
    simp [List.append_assoc]
  refine ⟨hout, ?_, ?_, hXw, hYw, hia, hiX, hiY, hXm, hYm, hXmem, hYmem⟩
  · rw [hout]
    exact scanScript_swap hscan hi2c
  · have h := findDef_wrap (Y := Y ++ ['\n']) (noBr_of_not_mem hbr) hXm
    rw [show '\n' :: ((X ++ defineLine n ++ Y) ++ ['\n']) =
        '\n' :: (X ++ defineLine n ++ (Y ++ ['\n'])) from by
      simp [List.append_assoc]]
    exact h

/-- First run on a block whose body already holds a pattern match: the
match is overwritten by the statement, which then sits in trimmed
position inside the rebuilt block. -/
theorem patchVue_replace {content pre a i post ra mm rb n : Str}
    (hscan : scanScript content = some (pre, a, i, post))
    (hmark : containsStr i marker = true)
    (hfd : findDef i = some (ra, mm, rb))
    (hdc : '$' ∉ content) (hdn : '$' ∉ n) (hbr : '}' ∉ n) (hlt : '<' ∉ n) :
    ∃ X Y,
      patchVue content n = pre ++ (openTag ++ a ++ '>' ::
        ('\n' :: ((X ++ defineLine n ++ Y) ++ ['\n'])) ++ closeTag) ++ post ∧
      scanScript (patchVue content n) =
        some (pre, a, '\n' :: ((X ++ defineLine n ++ Y) ++ ['\n']), post) ∧
      findDef ('\n' :: ((X ++ defineLine n ++ Y) ++ ['\n'])) =
        some ('\n' :: X, defineLine n, Y ++ ['\n']) ∧
      X.dropWhile isWs = X ∧ (Y.reverse.dropWhile isWs).reverse = Y ∧
      '$' ∉ a ∧ '$' ∉ X ∧ '$' ∉ Y := by
  obtain ⟨hdec, haf, hic, hminS⟩ := scanScript_eq hscan
  obtain ⟨hidec, htry, hfmin⟩ := findDef_eq hfd
  have hshape : DefShape mm := DefShape_of_tryDefAt htry
  refine ⟨ra.dropWhile isWs, (rb.reverse.dropWhile isWs).reverse, ?_⟩
  set X := ra.dropWhile isWs with hXdef
  set Y := (rb.reverse.dropWhile isWs).reverse with hYdef
  have hrainf : ra <:+: i := ⟨[], mm ++ rb, by rw [hidec]; simp⟩
  have hrbinf : rb <:+: i := ⟨ra ++ mm, [], by rw [hidec]; simp⟩
  have hXmem : ∀ c ∈ X, c ∈ i :=
    fun c hc => hrainf.mem (mem_dropWhile_ws hc)
  have hYmem : ∀ c ∈ Y, c ∈ i :=
    fun c hc => hrbinf.mem (mem_revtrim hc)
  have hia : '$' ∉ a := by
    intro hm
    apply hdc
    rw [hdec]
    simp only [List.mem_append, List.mem_cons]
    tauto
  have hii : '$' ∉ i := by
    intro hm
    apply hdc
    rw [hdec]
    simp only [List.mem_append, List.mem_cons]
    tauto
  have hiX : '$' ∉ X := fun hm => hii (hXmem _ hm)
  have hiY : '$' ∉ Y := fun hm => hii (hYmem _ hm)
  have hXc2 : containsStr X closeTag = false :=
    containsStr_false_within ((dropWhile_ws_within ra).trans hrainf) hic
  have hYc2 : containsStr Y closeTag = false :=
    containsStr_false_within ((revtrim_within rb).trans hrbinf) hic
  have hXw : X.dropWhile isWs = X := dropWhile_dropWhile isWs ra
  have hYw : (Y.reverse.dropWhile isWs).reverse = Y := revtrim_idem rb
  have hrepl : replaceFirstDef i (defineLine n) = ra ++ defineLine n ++ rb := by
    rw [replaceFirstDef_some hfd, expandDollar_eq_self _ _ _ _
      (substFree_of_not_mem (defineLine_not_mem hdn (by decide) (by decide)))]
  have htr : trimStr (replaceFirstDef i (defineLine n)) =
      X ++ defineLine n ++ Y := by
    rw [hrepl, trimStr_splice]
  have hi2c : containsStr ('\n' :: ((X ++ defineLine n ++ Y) ++ ['\n']))
      closeTag = false := by
    refine containsStr_cons_free (by decide) ?_
    refine containsStr_snoc_free ?_ (by decide) (by decide)
    have h := closeTag_free_splice hXc2 hYc2 hlt
    rw [← List.append_assoc] at h
    exact h
  have hout : patchVue content n = pre ++ (openTag ++ a ++ '>' ::
      ('\n' :: ((X ++ defineLine n ++ Y) ++ ['\n'])) ++ closeTag) ++ post := by
    rw [patchVue_frame hscan, if_pos hmark, htr,
        expandDollar_eq_self _ _ _ _
          (substFree_of_not_mem (newScript_dollar_free hia (splice_dollar_free hiX hiY hdn)))]
    simp [List.append_assoc]
  have hminX : ∀ p, p < X.length →
      tryDefAt (X.drop p ++ (defineLine n ++ (Y ++ ['\n']))) = none := by
    intro p hp
    have hXd : X.drop p = ra.drop ((ra.takeWhile isWs).length + p) := by
      rw [hXdef, dropWhile_eq_drop, List.drop_drop, Nat.add_comm]
    have hplen : (ra.takeWhile isWs).length + p < ra.length := by
      have h1 : X.length = ra.length - (ra.takeWhile isWs).length := by
        rw [hXdef, dropWhile_eq_drop, List.length_drop]
      have h2 : (ra.takeWhile isWs).length ≤ ra.length :=
        (List.takeWhile_prefix _).length_le
      omega
    by_contra hne
    have hsome : (tryDefAt (X.drop p ++
        (defineLine n ++ (Y ++ ['\n'])))).isSome = true :=
      Option.ne_none_iff_isSome.mp hne
    have htrans := @tryDefAt_transfer (X.drop p) mm rb (defineLine n)
      (Y ++ ['\n']) hshape
      (DefShape_defineLine (noBr_of_not_mem hbr)) (by
        rw [← List.append_assoc] at hsome
        exact hsome)
    have hold := hfmin ((ra.takeWhile isWs).length + p) hplen
    have holddec : i.drop ((ra.takeWhile isWs).length + p) =
        ra.drop ((ra.takeWhile isWs).length + p) ++ mm ++ rb := by
      rw [hidec, List.append_assoc,
          List.drop_append_of_le_length (Nat.le_of_lt hplen),
          List.append_assoc]
    rw [holddec] at hold
    rw [← hXd] at hold
    rw [hold] at htrans
    exact absurd htrans (by decide)
  refine ⟨hout, ?_, ?_, hXw, hYw, hia, hiX, hiY⟩
  · rw [hout]
    exact scanScript_swap hscan hi2c
  · have h := findDef_wrap_min (Y := Y ++ ['\n'])
      (noBr_of_not_mem hbr) hminX
    rw [show '\n' :: ((X ++ defineLine n ++ Y) ++ ['\n']) =
        '\n' :: (X ++ defineLine n ++ (Y ++ ['\n'])) from by
      simp [List.append_assoc]]
    exact h

theorem marker_chars_not_ws : ∀ c ∈ marker, isWs c = false := by decide

theorem trimStr_decomp_self (s : Str) :
    ∃ w1 w2, s = w1 ++ trimStr s ++ w2 ∧ allWs w1 ∧ allWs w2 := by
  obtain ⟨w, hw, hwws⟩ := revtrim_decomp (s.dropWhile isWs)
  refine ⟨s.takeWhile isWs, w, ?_, ?_, hwws⟩
  · conv_lhs => rw [← List.takeWhile_append_dropWhile (p := isWs) (l := s)]
    rw [trimStr, List.append_assoc, ← hw]
  · intro c hc
    exact List.mem_takeWhile_imp hc

/-- A marker occurrence survives trimming: the marker holds no
whitespace, so no occurrence reaches into the trimmed-away ends. -/
theorem containsStr_trim {i : Str} (h : containsStr i marker = true) :
    containsStr (trimStr i) marker = true := by
  obtain ⟨w1, w2, hdec, hw1, hw2⟩ := trimStr_decomp_self i
  rw [hdec, List.append_assoc] at h
  rcases containsStr_append_split h with h1 | h2 | ⟨k, hk0, hkl, hs, hp⟩
  · exfalso
    rw [containsStr_false_of_head_notin marker_head
      (fun hm => absurd (hw1 'd' hm) (by decide))] at h1
    exact absurd h1 (by decide)
  · rcases containsStr_append_split h2 with h3 | h4 | ⟨k, hk0, hkl, hs, hp⟩
    · exact h3
    · exfalso
      rw [containsStr_false_of_head_notin marker_head
        (fun hm => absurd (hw2 'd' hm) (by decide))] at h4
      exact absurd h4 (by decide)
    · exfalso
      cases hdk : marker.drop k with
      | nil =>
          have hlen := congrArg List.length hdk
          rw [List.length_drop, List.length_nil, marker_length] at hlen
          rw [marker_length] at hkl
          omega
      | cons c ct =>
          rw [hdk] at hp
          obtain ⟨t, ht⟩ := hp
          rw [List.cons_append] at ht
          have hcw2 : c ∈ w2 := by
            rw [← ht]
            exact List.mem_cons_self _ _
          have hcmk : c ∈ marker := by
            refine List.mem_of_mem_drop (l := marker) (n := k) ?_
            rw [hdk]
            exact List.mem_cons_self _ _
          have := hw2 c hcw2
          rw [marker_chars_not_ws c hcmk] at this
          exact absurd this (by decide)
  · exfalso
    have hdmem : 'd' ∈ marker.take k := by
      cases k with
      | zero => omega
      | succ k2 =>
          rw [show marker = 'd' :: "efineOptions".data from rfl,
              List.take_succ_cons]
          exact List.mem_cons_self _ _
    have hdw1 : 'd' ∈ w1 := hs.mem hdmem
    exact absurd (hw1 'd' hdw1) (by decide)

/-- Trimming preserves the absence of a pattern match: the only changed
surroundings are whitespace runs the pattern tail absorbs either way. -/
theorem findDef_trim_none {i : Str} (h : findDef i = none) :
    findDef ('\n' :: (trimStr i ++ ['\n'])) = none := by
  have hall := findDef_none h
  obtain ⟨w1, w2, hdec, hw1, hw2⟩ := trimStr_decomp_self i
  by_contra hne
  cases hcase : findDef ('\n' :: (trimStr i ++ ['\n'])) with
  | none => exact hne hcase
  | some p =>
      obtain ⟨x, m, b⟩ := p
      obtain ⟨hdec1, htry1, -⟩ := findDef_eq hcase
      have hsd : ('\n' :: (trimStr i ++ ['\n'])).drop x.length = m ++ b := by
        rw [hdec1, List.append_assoc, List.drop_left]
      rw [← hsd] at htry1
      cases x with
      | nil =>
          rw [List.length_nil, List.drop_zero,
              marker_not_prefix_of_head (by decide)] at htry1
          exact absurd htry1 (by simp)
      | cons x0 x2 =>
          rw [List.length_cons, List.drop_succ_cons] at htry1
          by_cases hlt : x2.length < (trimStr i).length
          · rw [List.drop_append_of_le_length (Nat.le_of_lt hlt)] at htry1
            have hsome : (tryDefAt ((trimStr i).drop x2.length ++
                ['\n'])).isSome = true := by
              rw [htry1]
              simp
            have hswap := @tryDefAt_ws_swap ((trimStr i).drop x2.length)
              ['\n'] w2
              (by intro c hc; simp at hc; rw [hc]; decide)
              hsome
            have hdrop : i.drop (w1.length + x2.length) =
                (trimStr i).drop x2.length ++ w2 := by
              conv_lhs => rw [hdec]
              rw [List.append_assoc, List.drop_append]
              rw [List.drop_append_of_le_length (Nat.le_of_lt hlt)]
            rw [← hdrop] at hswap
            rw [hall (w1.length + x2.length)] at hswap
            exact absurd hswap (by decide)
          · have hform : (trimStr i ++ ['\n']).drop x2.length =
                (['\n'] : Str).drop (x2.length - (trimStr i).length) := by
              have hsum : x2.length =
                  (trimStr i).length + (x2.length - (trimStr i).length) := by
                omega
              conv_lhs => rw [hsum, List.drop_append
                (x2.length - (trimStr i).length)]
            rw [hform] at htry1
            cases hdd : (['\n'] : Str).drop
                (x2.length - (trimStr i).length) with
            | nil =>
                rw [hdd, tryDefAt_nil] at htry1
                exact absurd htry1 (by simp)
            | cons c ct =>
                have hc : c = '\n' := by
                  have hmem : c ∈ (['\n'] : Str) := by
                    refine List.mem_of_mem_drop
                      (n := x2.length - (trimStr i).length) ?_
                    rw [hdd]
                    exact List.mem_cons_self _ _
                  simpa using hmem
                rw [hdd, hc, marker_not_prefix_of_head (by decide)] at htry1
                exact absurd htry1 (by simp)

/-- Stability of the no-match rewrite: a second run on a file whose
script body holds the marker only as a raw substring rewrites it to
itself (the body is already trimmed). -/
theorem patchVue_trim_stable {content pre a i post n : Str}
    (hscan : scanScript content = some (pre, a, i, post))
    (hmark : containsStr i marker = true)
    (hfind : findDef i = none)
    (hdc : '$' ∉ content) :
    patchVue (patchVue content n) n = patchVue content n := by
  obtain ⟨hdec, haf, hic, hminS⟩ := scanScript_eq hscan
  have hTinf : trimStr i <:+: i := by
    obtain ⟨w1, w2, hd2, -, -⟩ := trimStr_decomp_self i
    exact ⟨w1, w2, hd2.symm⟩
  have hTc : containsStr (trimStr i) closeTag = false :=
    containsStr_false_within hTinf hic
  have hi1c : containsStr ('\n' :: (trimStr i ++ ['\n'])) closeTag = false :=
    containsStr_cons_free (by decide)
      (containsStr_snoc_free hTc (by decide) (by decide))
  have hia : '$' ∉ a := by
    intro hm
    apply hdc
    rw [hdec]
    simp only [List.mem_append, List.mem_cons]
    tauto
  have hii : '$' ∉ i := by
    intro hm
    apply hdc
    rw [hdec]
    simp only [List.mem_append, List.mem_cons]
    tauto
  have hiT : '$' ∉ trimStr i := fun hm => hii (hTinf.mem hm)
  have hexp := expandDollar_eq_self (openTag ++ a ++ '>' :: i ++ closeTag)
    pre post _ (substFree_of_not_mem (newScript_dollar_free hia hiT))
  have hout : patchVue content n = pre ++ (openTag ++ a ++ '>' ::
      ('\n' :: (trimStr i ++ ['\n'])) ++ closeTag) ++ post := by
    rw [patchVue_frame hscan, if_pos hmark, replaceFirstDef_none hfind, hexp]
    simp [List.append_assoc]
  have hscan2 : scanScript (patchVue content n) =
      some (pre, a, '\n' :: (trimStr i ++ ['\n']), post) := by
    rw [hout]
    exact scanScript_swap hscan hi1c
  have hmark2 : containsStr ('\n' :: (trimStr i ++ ['\n'])) marker = true := by
    refine containsStr_within_of (x := trimStr i) ⟨['\n'], ['\n'], rfl⟩ ?_
    exact containsStr_trim hmark
  have hfind2 : findDef ('\n' :: (trimStr i ++ ['\n'])) = none :=
    findDef_trim_none hfind
  rw [patchVue_frame hscan2, if_pos hmark2, replaceFirstDef_none hfind2,
      trimStr_wrap, trimStr_trimStr]
  rw [expandDollar_eq_self _ _ _ _
    (substFree_of_not_mem (newScript_dollar_free hia hiT))]
  rw [hout]
  simp [List.append_assoc]

/-- C2 counterexample: a name containing the replacement pattern `$&`
makes the first run splice the matched text into the replacement, so the
second run's output differs from the first run's. -/
theorem C2_counterexample :
    patchVue (patchVue
        "<script>\ndefineOptions(\x7b name: \"Old\" \x7d);\n</script>".data
        "A$&B".data) "A$&B".data ≠
      patchVue "<script>\ndefineOptions(\x7b name: \"Old\" \x7d);\n</script>".data
        "A$&B".data := by
  set_option maxRecDepth 10000 in decide

/-- C2 amended: the patcher is idempotent for names and file contents
free of the `$` substitution trigger, with names also free of `}` (which
would cut the injected statement's body short) and `<` (which could
forge a closing tag). -/
theorem C2_idempotence_amended {content n : Str}
    (hdc : '$' ∉ content) (hdn : '$' ∉ n) (hbr : '}' ∉ n) (hlt : '<' ∉ n) :
    patchVue (patchVue content n) n = patchVue content n := by
  cases hscan : scanScript content with
  | none =>
      obtain ⟨hout, hscan2⟩ := patchVue_fresh hscan hlt
      have hout2 : patchVue content n = [] ++ (openTag ++ " setup".data ++
          '>' :: ('\n' :: ((([] : Str) ++ defineLine n ++ []) ++ ['\n'])) ++
          closeTag) ++ '\n' :: content := by
        rw [hout]
        simp [List.append_assoc]
      have hscan1 : scanScript ([] ++ (openTag ++ " setup".data ++
          '>' :: ('\n' :: ((([] : Str) ++ defineLine n ++ []) ++ ['\n'])) ++
          closeTag) ++ '\n' :: content) =
          some ([], " setup".data,
            '\n' :: ((([] : Str) ++ defineLine n ++ []) ++ ['\n']),
            '\n' :: content) := by
        rw [hout2] at hscan2
        simpa [List.append_assoc] using hscan2
      have hfind : findDef ('\n' :: ((([] : Str) ++ defineLine n ++ []) ++
          ['\n'])) = some ('\n' :: ([] : Str), defineLine n,
            ([] : Str) ++ ['\n']) := by
        have h := findDef_wrap (X := []) (Y := ['\n'])
          (noBr_of_not_mem hbr) (by decide)
        simpa using h
      have hov := patchVue_overwrite (m := n) hscan1 hfind (by simp)
        (by simp) (by decide) (by simp) (by simp) hdn
      rw [hout2, hov]
  | some q =>
      obtain ⟨pre, a, i, post⟩ := q
      by_cases hmark : containsStr i marker = true
      · cases hfd : findDef i with
        | none => exact patchVue_trim_stable hscan hmark hfd hdc
        | some p =>
            obtain ⟨ra, mm, rb⟩ := p
            obtain ⟨X, Y, hout, hscan2, hfind2, hXw, hYw, hia, hiX, hiY⟩ :=
              patchVue_replace hscan hmark hfd hdc hdn hbr hlt
            rw [hout] at hscan2
            have hov := patchVue_overwrite (m := n) hscan2 hfind2 hXw hYw
              hia hiX hiY hdn
            rw [hout, hov]
      · rw [Bool.not_eq_true] at hmark
        obtain ⟨X, Y, hout, hscan2, hfind2, hXw, hYw, hia, hiX, hiY, -, -,
          -, -⟩ := patchVue_insert hscan hmark hdc hdn hbr hlt
        rw [hout] at hscan2
        have hov := patchVue_overwrite (m := n) hscan2 hfind2 hXw hYw
          hia hiX hiY hdn
        rw [hout, hov]

/-- C2 amended witness: a concrete clean file and name. -/
theorem C2_idempotence_amended_witness :
    patchVue (patchVue "<script>\nlet x = 1;\n</script>tail".data "Nm".data)
        "Nm".data =
      patchVue "<script>\nlet x = 1;\n</script>tail".data "Nm".data :=
  C2_idempotence_amended (by decide) (by decide) (by decide) (by decide)

/-! ### Occurrence counting and the file-system steps -/

/-- The number of positions where `n` occurs in `s` (overlaps counted). -/
def countOcc : Str → Str → Nat
  | [], _ => 0
  | c :: t, n => (if n.isPrefixOf (c :: t) then 1 else 0) + countOcc t n

theorem countOcc_zero {s m : Str}
    (h : ∀ p, ¬ m.isPrefixOf (s.drop p) = true) : countOcc s m = 0 := by
  induction s with
  | nil => rfl
  | cons c t ih =>
      rw [countOcc, if_neg (by simpa using h 0)]
      rw [ih (fun p => by simpa [List.drop_succ_cons] using h (p + 1))]

theorem countOcc_one {s m : Str} : ∀ {j : Nat},
    m.isPrefixOf (s.drop j) = true →
    (∀ p, ¬ p = j → ¬ m.isPrefixOf (s.drop p) = true) →
    countOcc s m = 1 := by
  induction s with
  | nil =>
      intro j hj hother
      rw [List.drop_nil] at hj
      have := hother (j + 1) (by omega)
      rw [List.drop_nil] at this
      exact absurd hj this
  | cons c t ih =>
      intro j hj hother
      by_cases hp : m.isPrefixOf (c :: t) = true
      · cases j with
        | zero =>
            rw [countOcc, if_pos hp]
            rw [countOcc_zero (fun p => by
              simpa [List.drop_succ_cons] using hother (p + 1) (by omega))]
        | succ j2 =>
            exact absurd hp (by simpa using hother 0 (by omega))
      · cases j with
        | zero =>
            rw [List.drop_zero] at hj
            exact absurd hj hp
        | succ j2 =>
            rw [countOcc, if_neg hp, Nat.zero_add]
            rw [List.drop_succ_cons] at hj
            refine ih hj ?_
            intro p hne
            have := hother (p + 1) (by omega)
            rw [List.drop_succ_cons] at this
            exact this

theorem marker_not_prefix_mid {A Z : Str} {q : Nat}
    (hA : containsStr A marker = false) (hq : q < A.length) :
    ¬ marker <+: A.drop q ++ (marker ++ Z) := by
  intro hp2
  rcases prefix_split hp2 with ⟨-, hnp⟩ | ⟨hl, hap, hdp⟩
  · have := containsStr_of_prefix_drop hnp
    rw [hA] at this
    exact absurd this (by decide)
  · have hk0 : 0 < (A.drop q).length := by rw [List.length_drop]; omega
    by_cases hkn : (A.drop q).length < marker.length
    · exact self_overlap_kill hk0 hkn (marker_no_border _ hkn hk0) hdp
    · have heq : A.drop q = marker := List.IsPrefix.eq_of_length hap (by omega)
      have := containsStr_of_prefix_drop (j := q) (n := marker) (A := A)
        (by rw [heq])
      rw [hA] at this
      exact absurd this (by decide)

theorem marker_not_prefix_tail {Z : Str} {k : Nat}
    (hZ : containsStr Z marker = false) (hk : 0 < k) :
    ¬ marker <+: (marker ++ Z).drop k := by
  intro hp
  by_cases hk13 : k < marker.length
  · rw [List.drop_append_of_le_length (Nat.le_of_lt hk13)] at hp
    rcases prefix_split hp with ⟨hl, -⟩ | ⟨-, hap, -⟩
    · rw [List.length_drop, marker_length] at hl
      rw [marker_length] at hk13
      omega
    · exact marker_no_border k (by rw [marker_length] at hk13; exact hk13)
        hk hap
  · have hform : (marker ++ Z).drop k = Z.drop (k - marker.length) := by
      have hsum : k = marker.length + (k - marker.length) := by omega
      conv_lhs => rw [hsum, List.drop_append (k - marker.length)]
    rw [hform] at hp
    exact (containsStr_false_iff.mp hZ _) hp

/-- The spliced statement occurs exactly once when the flanks are
marker-free. -/
theorem countOcc_splice {U Z : Str} (hU : containsStr U marker = false)
    (hZ : containsStr Z marker = false) :
    countOcc (U ++ (marker ++ Z)) marker = 1 := by
  refine countOcc_one (j := U.length) ?_ ?_
  · rw [List.drop_left]
    exact isPrefixOf_append _ _
  · intro p hne hp
    rw [List.isPrefixOf_iff_prefix] at hp
    by_cases hplt : p < U.length
    · rw [List.drop_append_of_le_length (Nat.le_of_lt hplt)] at hp
      exact marker_not_prefix_mid hU hplt hp
    · have hform : (U ++ (marker ++ Z)).drop p =
          (marker ++ Z).drop (p - U.length) := by
        have hsum : p = U.length + (p - U.length) := by omega
        conv_lhs => rw [hsum, List.drop_append (p - U.length)]
      rw [hform] at hp
      exact marker_not_prefix_tail hZ (by omega) hp

theorem lookupFs_writeFs (fs : Fs) (p c : Str) :
    lookupFs (writeFs fs p c) p = some c := by
  induction fs with
  | nil => simp [writeFs, lookupFs, List.find?]
  | cons hd t ih =>
      obtain ⟨q, d⟩ := hd
      rw [writeFs]
      by_cases hq : q = p
      · rw [if_pos hq]
        simp [lookupFs, List.find?]
      · rw [if_neg hq]
        rw [lookupFs, List.find?_cons_of_neg _ (by simpa using hq)]
        exact ih

theorem processRoute_write {excl : List Str} {vd : Str} {fs : Fs}
    {r : RouteItem} {content : Str}
    (hex : excludedCheck excl r.relativePath = false)
    (hlook : lookupFs fs (targetPath vd r.relativePath) = some content) :
    (processRoute excl vd fs r).1 =
      writeFs fs (targetPath vd r.relativePath) (patchVue content r.name) := by
  rw [processRoute, if_neg (by simp [hex])]
  simp only []
  rw [hlook]

theorem runPatcher_pair (excl : List Str) (vd : Str) (fs : Fs)
    (r1 r2 : RouteItem) :
    (runPatcher excl vd fs [r1, r2]).1 =
      (processRoute excl vd (processRoute excl vd fs r1).1 r2).1 := rfl

theorem marker_free_U {pre a X : Str}
    (hpre : containsStr pre marker = false)
    (ha : containsStr a marker = false)
    (hX : containsStr X marker = false) :
    containsStr (pre ++ (openTag ++ (a ++ '>' :: '\n' :: X))) marker = false := by
  have h1 : containsStr ('>' :: '\n' :: X) marker = false :=
    containsStr_cons_free (by decide) (containsStr_cons_free (by decide) hX)
  have h2 : containsStr (a ++ '>' :: '\n' :: X) marker = false := by
    refine containsStr_append_free_headB ha h1 rfl ?_
    intro k hk0 hkl
    exact (by decide : ∀ j < 13, 0 < j →
      ¬ (marker.drop j).head? = some '>') k hkl hk0
  have h3 : containsStr (openTag ++ (a ++ '>' :: '\n' :: X)) marker = false := by
    refine containsStr_append_free_suffA (by decide) h2 ?_
    intro k hk0 hkl
    exact (by decide : ∀ j < 13, 0 < j →
      ¬ marker.take j <:+ openTag) k hkl hk0
  have hh : (openTag ++ (a ++ '>' :: '\n' :: X)).head? = some '<' := by
    rw [List.head?_append_of_ne_nil _ (by decide : openTag ≠ [])]
    rfl
  refine containsStr_append_free_headB hpre h3 hh ?_
  intro k hk0 hkl
  exact (by decide : ∀ j < 13, 0 < j →
    ¬ (marker.drop j).head? = some '<') k hkl hk0

theorem marker_free_V {Y post : Str}
    (hY : containsStr Y marker = false)
    (hpost : containsStr post marker = false) :
    containsStr (Y ++ '\n' :: (closeTag ++ post)) marker = false := by
  have h1 : containsStr (closeTag ++ post) marker = false := by
    refine containsStr_append_free_suffA (by decide) hpost ?_
    intro k hk0 hkl
    exact (by decide : ∀ j < 13, 0 < j →
      ¬ marker.take j <:+ closeTag) k hkl hk0
  have h2 : containsStr ('\n' :: (closeTag ++ post)) marker = false :=
    containsStr_cons_free (by decide) h1
  refine containsStr_append_free_headB hY h2 rfl ?_
  intro k hk0 hkl
  exact (by decide : ∀ j < 13, 0 < j →
    ¬ (marker.drop j).head? = some '\n') k hkl hk0

theorem marker_free_rest {n V : Str} (hn : containsStr n marker = false)
    (hV : containsStr V marker = false) :
    containsStr ("(\x7b name: \"".data ++
      (n ++ ("\" \x7d);".data ++ V))) marker = false := by
  have h1 : containsStr ("\" \x7d);".data ++ V) marker = false := by
    refine containsStr_append_free_suffA (by decide) hV ?_
    intro k hk0 hkl
    exact (by decide : ∀ j < 13, 0 < j →
      ¬ marker.take j <:+ "\" \x7d);".data) k hkl hk0
  have h2 : containsStr (n ++ ("\" \x7d);".data ++ V)) marker = false := by
    have hh2 : ("\" \x7d);".data ++ V).head? = some '\"' := by
      rw [List.head?_append_of_ne_nil _ (by decide : "\" \x7d);".data ≠ [])]
      rfl
    refine containsStr_append_free_headB hn h1 hh2 ?_
    intro k hk0 hkl
    exact (by decide : ∀ j < 13, 0 < j →
      ¬ (marker.drop j).head? = some '\"') k hkl hk0
  refine containsStr_append_free_suffA (by decide) h2 ?_
  intro k hk0 hkl
  exact (by decide : ∀ j < 13, 0 < j →
    ¬ marker.take j <:+ "(\x7b name: \"".data) k hkl hk0

/-- C9 counterexample: a script body that already holds two statements
matching the loose pattern; after both routes run, the file holds two
marker occurrences, not exactly one. -/
theorem C9_counterexample :
    (lookupFs (runPatcher [] "v".data
        [(targetPath "v".data "a".data,
          ("<script>\ndefineOptions(\x7b name: \"X\" \x7d);\n" ++
           "defineOptions(\x7b name: \"Y\" \x7d);\n</script>").data)]
        [⟨"A".data, "a".data⟩, ⟨"B".data, "a".data⟩]).1
      (targetPath "v".data "a".data)).map (fun F => countOcc F marker) =
      some 2 := by
  set_option maxRecDepth 20000 in decide

/-- C9 amended: when the original file body is marker-free (and names
and content avoid the hazardous characters), the later route's patch
overwrites the earlier one: the final file holds the later name's
statement, with marker-free text around it and exactly one marker
occurrence in total. -/
theorem C9_later_route_overwrites {excl : List Str} {vd : Str} {fs : Fs}
    {rel n1 n2 content : Str}
    (hex : excludedCheck excl rel = false)
    (hlook : lookupFs fs (targetPath vd rel) = some content)
    (hcm : containsStr content marker = false)
    (hdc : '$' ∉ content)
    (hd1 : '$' ∉ n1) (hb1 : '}' ∉ n1) (hl1 : '<' ∉ n1)
    (hd2 : '$' ∉ n2) (hb2 : '}' ∉ n2) (hl2 : '<' ∉ n2)
    (hn2m : containsStr n2 marker = false) :
    ∃ F U V,
      lookupFs (runPatcher excl vd fs
          [⟨n1, rel⟩, ⟨n2, rel⟩]).1 (targetPath vd rel) = some F ∧
      F = U ++ defineLine n2 ++ V ∧
      containsStr U marker = false ∧ containsStr V marker = false ∧
      countOcc F marker = 1 := by
  have h1 : (processRoute excl vd fs ⟨n1, rel⟩).1 =
      writeFs fs (targetPath vd rel) (patchVue content n1) :=
    processRoute_write hex hlook
  have hlook1 : lookupFs (writeFs fs (targetPath vd rel)
      (patchVue content n1)) (targetPath vd rel) =
      some (patchVue content n1) := lookupFs_writeFs _ _ _
  have h2 : (processRoute excl vd (writeFs fs (targetPath vd rel)
      (patchVue content n1)) ⟨n2, rel⟩).1 =
      writeFs (writeFs fs (targetPath vd rel) (patchVue content n1))
        (targetPath vd rel) (patchVue (patchVue content n1) n2) :=
    processRoute_write hex hlook1
  have hrun : lookupFs (runPatcher excl vd fs
      [⟨n1, rel⟩, ⟨n2, rel⟩]).1 (targetPath vd rel) =
      some (patchVue (patchVue content n1) n2) := by
    rw [runPatcher_pair, h1, h2]
    exact lookupFs_writeFs _ _ _
  cases hscan : scanScript content with
  | none =>
      obtain ⟨hout, hscan2⟩ := patchVue_fresh hscan hl1
      have hout2 : patchVue content n1 = [] ++ (openTag ++ " setup".data ++
          '>' :: ('\n' :: ((([] : Str) ++ defineLine n1 ++ []) ++ ['\n'])) ++
          closeTag) ++ '\n' :: content := by
        rw [hout]
        simp [List.append_assoc]
      have hscan1 : scanScript ([] ++ (openTag ++ " setup".data ++
          '>' :: ('\n' :: ((([] : Str) ++ defineLine n1 ++ []) ++ ['\n'])) ++
          closeTag) ++ '\n' :: content) =
          some ([], " setup".data,
            '\n' :: ((([] : Str) ++ defineLine n1 ++ []) ++ ['\n']),
            '\n' :: content) := by
        rw [hout2] at hscan2
        simpa [List.append_assoc] using hscan2
      have hfind : findDef ('\n' :: ((([] : Str) ++ defineLine n1 ++ []) ++
          ['\n'])) = some ('\n' :: ([] : Str), defineLine n1,
            ([] : Str) ++ ['\n']) := by
        have h := findDef_wrap (X := []) (Y := ['\n'])
          (noBr_of_not_mem hb1) (by decide)
        simpa using h
      have hov := patchVue_overwrite (m := n1) (n := n2) hscan1 hfind
        (by simp) (by simp) (by decide) (by simp) (by simp) hd2
      refine ⟨patchVue (patchVue content n1) n2,
        [] ++ (openTag ++ (" setup".data ++ '>' :: '\n' :: ([] : Str))),
        [] ++ '\n' :: (closeTag ++ '\n' :: content), hrun, ?_, ?_, ?_, ?_⟩
      · rw [hout2, hov]
        simp [List.append_assoc]
      · exact marker_free_U (by decide) (by decide) (by decide)
      · exact marker_free_V (by decide)
          (containsStr_cons_free (by decide) hcm)
      · rw [hout2, hov]
        have hZ : containsStr ("(\x7b name: \"".data ++
            (n2 ++ ("\" \x7d);".data ++
              ([] ++ '\n' :: (closeTag ++ '\n' :: content))))) marker =
            false :=
          marker_free_rest hn2m (marker_free_V (by decide)
            (containsStr_cons_free (by decide) hcm))
        have hform : [] ++ (openTag ++ " setup".data ++
            '>' :: ('\n' :: ((([] : Str) ++ defineLine n2 ++ []) ++ ['\n'])) ++
            closeTag) ++ '\n' :: content =
            ([] ++ (openTag ++ (" setup".data ++ '>' :: '\n' :: ([] : Str)))) ++
            (marker ++ ("(\x7b name: \"".data ++
              (n2 ++ ("\" \x7d);".data ++
                ([] ++ '\n' :: (closeTag ++ '\n' :: content)))))) := by
          rw [defineLine_marker n2]
          simp [List.append_assoc]
        rw [hform]
        exact countOcc_splice
          (marker_free_U (by decide) (by decide) (by decide)) hZ
  | some q =>
      obtain ⟨pre, a, i, post⟩ := q
      obtain ⟨hdec, -, -, -⟩ := scanScript_eq hscan
      have hpreinf : pre <:+: content :=
        ⟨[], openTag ++ a ++ '>' :: i ++ closeTag ++ post, by
          rw [hdec]; simp [List.append_assoc]⟩
      have hainf : a <:+: content :=
        ⟨pre ++ openTag, '>' :: i ++ closeTag ++ post, by
          rw [hdec]; simp [List.append_assoc]⟩
      have hiinf : i <:+: content :=
        ⟨pre ++ openTag ++ a ++ ['>'], closeTag ++ post, by
          rw [hdec]; simp [List.append_assoc]⟩
      have hpostinf : post <:+: content :=
        ⟨pre ++ openTag ++ a ++ '>' :: i ++ closeTag, [], by
          rw [hdec]; simp [List.append_assoc]⟩
      have hmark : containsStr i marker = false :=
        containsStr_false_within hiinf hcm
      obtain ⟨X, Y, hout, hscan2, hfind2, hXw, hYw, hia, hiX, hiY, hXm, hYm,
        -, -⟩ := patchVue_insert hscan hmark hdc hd1 hb1 hl1
      rw [hout] at hscan2
      have hov := patchVue_overwrite (m := n1) (n := n2) hscan2 hfind2
        hXw hYw hia hiX hiY hd2
      have hUfree : containsStr (pre ++ (openTag ++
          (a ++ '>' :: '\n' :: X))) marker = false :=
        marker_free_U (containsStr_false_within hpreinf hcm)
          (containsStr_false_within hainf hcm) hXm
      have hVfree : containsStr (Y ++ '\n' :: (closeTag ++ post))
          marker = false :=
        marker_free_V hYm (containsStr_false_within hpostinf hcm)
      refine ⟨patchVue (patchVue content n1) n2,
        pre ++ (openTag ++ (a ++ '>' :: '\n' :: X)),
        Y ++ '\n' :: (closeTag ++ post), hrun, ?_, hUfree, hVfree, ?_⟩
      · rw [hout, hov]
        simp [List.append_assoc]
      · rw [hout, hov]
        have hZ : containsStr ("(\x7b name: \"".data ++
            (n2 ++ ("\" \x7d);".data ++
              (Y ++ '\n' :: (closeTag ++ post))))) marker = false :=
          marker_free_rest hn2m hVfree
        have hform : pre ++ (openTag ++ a ++ '>' ::
            ('\n' :: ((X ++ defineLine n2 ++ Y) ++ ['\n'])) ++ closeTag) ++
            post =
            (pre ++ (openTag ++ (a ++ '>' :: '\n' :: X))) ++
            (marker ++ ("(\x7b name: \"".data ++
              (n2 ++ ("\" \x7d);".data ++
                (Y ++ '\n' :: (closeTag ++ post)))))) := by
          rw [defineLine_marker n2]
          simp [List.append_assoc]
        rw [hform]
        exact countOcc_splice hUfree hZ

/-- C9 amended witness: two concrete routes on one clean file. -/
theorem C9_later_route_overwrites_witness :
    ∃ F U V,
      lookupFs (runPatcher [] "v".data
          [(targetPath "v".data "a".data,
            "<script>\nlet q = 1;\n</script>".data)]
          [⟨"A".data, "a".data⟩, ⟨"B".data, "a".data⟩]).1
        (targetPath "v".data "a".data) = some F ∧
      F = U ++ defineLine "B".data ++ V ∧
      containsStr U marker = false ∧ containsStr V marker = false ∧
      countOcc F marker = 1 :=
  @C9_later_route_overwrites [] "v".data
    [(targetPath "v".data "a".data,
      "<script>\nlet q = 1;\n</script>".data)]
    "a".data "A".data "B".data "<script>\nlet q = 1;\n</script>".data
    (by decide) (by decide) (by decide) (by decide) (by decide) (by decide)
    (by decide) (by decide) (by decide) (by decide) (by decide)

end InjectDefineOptions
